import Mathlib

/-!
Verification development for the enchant personal word list (PWL) core
(src/src/pwl.c).

Modelling conventions:

* UTF-8 strings are modelled as lists of Unicode scalar values
  (`List Nat`); all trie traversal in the C code happens at scalar
  boundaries, so positions are scalar indices.  Where the C code counts
  BYTES (the `strlen` arithmetic in the EOS branch of
  `enchant_trie_find_matches`), we recover byte counts from the scalars
  through `utf8Len`, the length of the UTF-8 encoding of a scalar.
* glib Unicode primitives (NFD normalisation, case mapping, character
  categories) live outside this repository; they are abstracted into a
  `UniModel` parameter.  A concrete ASCII instance `asciiModel` is used
  to evaluate the definitions on concrete inputs.
* `GHashTable` is modelled as an association list with unique keys;
  `g_hash_table_insert` replaces in place or appends, `g_hash_table_foreach`
  iterates in list order (the C iteration order is unspecified).
* The recursive `EnchantTrie` struct (nullable `value`, nullable
  `subtries`, the shared `EOSTrie` sentinel, and the NULL pointer for the
  empty trie) is modelled by the inductive `Trie` below.
-/

/-- Association list lookup, modelling g_hash_table_lookup with
g_str_equal keys. -/
def alookup {β : Type} : List (List Nat × β) → List Nat → Option β
  | [], _ => none
  | (k, v) :: r, key => if k = key then some v else alookup r key

/-- Association list insert, modelling g_hash_table_insert: replaces the
value when the key is present, otherwise adds a new entry. -/
def ainsert {β : Type} : List (List Nat × β) → List Nat → β → List (List Nat × β)
  | [], key, v => [(key, v)]
  | (k, w) :: r, key, v => if k = key then (key, v) :: r else (k, w) :: ainsert r key v

/-- Association list removal, modelling g_hash_table_remove: removes the
entry with the given key, if any. -/
def aremove {β : Type} : List (List Nat × β) → List Nat → List (List Nat × β)
  | [], _ => []
  | (k, w) :: r, key => if k = key then r else (k, w) :: aremove r key

@[simp] theorem alookup_nil {β : Type} (key : List Nat) :
    alookup ([] : List (List Nat × β)) key = none := rfl

@[simp] theorem alookup_cons {β : Type} (k : List Nat) (v : β) (r : List (List Nat × β)) (key : List Nat) :
    alookup ((k, v) :: r) key = if k = key then some v else alookup r key := rfl

theorem alookup_ainsert {β : Type} (l : List (List Nat × β)) (key : List Nat) (v : β) :
    alookup (ainsert l key v) key = some v := by
  induction l with
  | nil => simp [ainsert]
  | cons p r ih =>
    obtain ⟨k, w⟩ := p
    by_cases h : k = key <;> simp [ainsert, h, ih]

theorem alookup_ainsert_ne {β : Type} (l : List (List Nat × β)) (key key2 : List Nat) (v : β)
    (h : key ≠ key2) : alookup (ainsert l key v) key2 = alookup l key2 := by
  induction l with
  | nil => simp [ainsert, h]
  | cons p r ih =>
    obtain ⟨k, w⟩ := p
    by_cases hk : k = key
    · subst hk; simp [ainsert, h]
    · simp [ainsert, hk, ih]

theorem alookup_eq_none_of_not_mem {β : Type} (l : List (List Nat × β)) (key : List Nat)
    (h : key ∉ l.map Prod.fst) : alookup l key = none := by
  induction l with
  | nil => simp
  | cons p r ih =>
    obtain ⟨k, w⟩ := p
    simp only [List.map_cons, List.mem_cons, not_or] at h
    simp [Ne.symm h.1, ih h.2]

theorem alookup_aremove_ne {β : Type} (l : List (List Nat × β)) (key key2 : List Nat)
    (h : key ≠ key2) : alookup (aremove l key) key2 = alookup l key2 := by
  induction l with
  | nil => simp [aremove]
  | cons p r ih =>
    obtain ⟨k, w⟩ := p
    by_cases hk : k = key
    · subst hk
      simp [aremove, h]
    · by_cases h2 : k = key2
      · subst h2
        simp [aremove, hk]
      · simp [aremove, hk, h2, ih]

theorem alookup_aremove_self {β : Type} (l : List (List Nat × β)) (key : List Nat)
    (hnd : (l.map Prod.fst).Nodup) :
    alookup (aremove l key) key = none := by
  induction l with
  | nil => simp [aremove]
  | cons p r ih =>
    obtain ⟨k, w⟩ := p
    simp only [List.map_cons, List.nodup_cons] at hnd
    by_cases hk : k = key
    · subst hk
      simp only [aremove, if_pos rfl]
      exact alookup_eq_none_of_not_mem r k hnd.1
    · simp [aremove, hk, ih hnd.2]

theorem aremove_ainsert_fresh {β : Type} (l : List (List Nat × β)) (key : List Nat) (v : β)
    (h : alookup l key = none) : aremove (ainsert l key v) key = l := by
  induction l with
  | nil => simp [ainsert, aremove]
  | cons p r ih =>
    obtain ⟨k, w⟩ := p
    by_cases hk : k = key
    · subst hk
      rw [alookup_cons, if_pos rfl] at h
      exact Option.noConfusion h
    · simp only [alookup_cons, if_neg hk] at h
      simp [ainsert, hk, aremove, ih h]

theorem alookup_mem {β : Type} {l : List (List Nat × β)} {key : List Nat} {v : β}
    (h : alookup l key = some v) : (key, v) ∈ l := by
  induction l with
  | nil => simp [alookup] at h
  | cons p r ih =>
    obtain ⟨k, w⟩ := p
    by_cases hk : k = key
    · subst hk
      rw [alookup_cons, if_pos rfl] at h
      rw [Option.some.injEq] at h
      subst h; exact List.mem_cons_self _ _
    · simp only [alookup_cons, if_neg hk] at h
      exact List.mem_cons_of_mem _ (ih h)

/-- Length in bytes of the UTF-8 encoding of a Unicode scalar value. -/
def utf8Len (c : Nat) : Nat :=
  if c < 0x80 then 1 else if c < 0x800 then 2 else if c < 0x10000 then 3 else 4

theorem utf8Len_pos (c : Nat) : 0 < utf8Len c := by
  simp only [utf8Len]; split_ifs <;> omega

/-- Number of bytes of the UTF-8 encoding of the scalars of `w` from scalar
position `pos` on.  This equals `strlen(matcher->word) - matcher->word_pos`
in the C code whenever `word_pos` sits at a scalar boundary, and `0` when
`word_pos` has run past the end of the word into the NUL padding. -/
def remBytes (w : List Nat) (pos : Nat) : Nat :=
  ((w.drop pos).map utf8Len).sum

/-- glib Unicode character categories, restricted to the distinctions the
source makes: `G_UNICODE_UPPERCASE_LETTER`, `G_UNICODE_TITLECASE_LETTER`,
`G_UNICODE_LOWERCASE_LETTER`, and everything else (all remaining cases of
the switch in enchant_is_all_caps fall through to `break`). -/
inductive CharCat where
  | upper : CharCat
  | title : CharCat
  | lower : CharCat
  | other : CharCat
deriving DecidableEq

/-- Abstraction of the glib Unicode primitives used by pwl.c.  These live
in glib, outside this repository, so they are parameters of the model:
`nfd` is g_utf8_normalize(-, G_NORMALIZE_NFD), `strdown` is g_utf8_strdown,
`strup` is g_utf8_strup, `totitle` is g_unichar_totitle and `cat` is
g_unichar_type. -/
structure UniModel where
  nfd : List Nat → List Nat
  strdown : List Nat → List Nat
  strup : List Nat → List Nat
  totitle : Nat → Nat
  cat : Nat → CharCat

/-- ASCII uppercase mapping, the ASCII fragment of the glib case tables. -/
def asciiUp (c : Nat) : Nat := if 97 ≤ c ∧ c ≤ 122 then c - 32 else c

/-- ASCII lowercase mapping, the ASCII fragment of the glib case tables. -/
def asciiDown (c : Nat) : Nat := if 65 ≤ c ∧ c ≤ 90 then c + 32 else c

/-- Concrete `UniModel` instance: the ASCII fragment of the glib Unicode
tables (NFD is the identity on ASCII; case mapping is the usual one). -/
def asciiModel : UniModel where
  nfd := fun w => w
  strdown := fun w => w.map asciiDown
  strup := fun w => w.map asciiUp
  totitle := asciiUp
  cat := fun c =>
    if 65 ≤ c ∧ c ≤ 90 then CharCat.upper
    else if 97 ≤ c ∧ c ≤ 122 then CharCat.lower
    else CharCat.other

/-- The EnchantTrie structure of pwl.c.  `null` is the NULL pointer (the
empty trie), `eos` is the shared EOSTrie sentinel (a node whose `value`
and `subtries` are both NULL but which is compared by pointer), and
`node v st` is an ordinary heap node with nullable `value` and nullable
`subtries` hash table.  Hash keys are the UTF-8 forms of single scalars
(`[c]`) or the empty string (`[]`, the end-of-string key). -/
inductive Trie where
  | null : Trie
  | eos : Trie
  | node : Option (List Nat) → Option (List (List Nat × Trie)) → Trie

/-- The value field of a trie node (NULL on the null pointer and on the
EOS sentinel). -/
def Trie.valueOf : Trie → Option (List Nat)
  | Trie.node v _ => v
  | _ => none

/-- The hash table built by the promotion branch of enchant_trie_insert:
a fresh empty table into which the old leaf value `v` has been inserted
(the first of the two recursive `enchant_trie_insert(trie, ...)` calls at
lines 738-739 of pwl.c, unfolded: for an empty word it stores the EOS
sentinel under the empty key, otherwise a fresh leaf holding the tail
under the first scalar). -/
def singletonTable (v : List Nat) : List (List Nat × Trie) :=
  match v with
  | [] => [([], Trie.eos)]
  | c :: cs => [([c], Trie.node (some cs) none)]

/-- enchant_trie_insert (pwl.c lines 708-744), with the in-place mutation
turned into a returned trie.  The promotion branch (value set: allocate a
fresh subtries table, clear the value, reinsert the old value and then the
new word) is unfolded one step: reinserting the old value `v` into the
fresh empty table yields `singletonTable v`, after which the insertion of
`word` proceeds as in the branch case.  `enchant_trie_insert_promote`
below proves this unfolding equal to the two-call original.  Inserting
into the EOS sentinel never happens (the sentinel is only ever stored
under the end-of-string key, which is handled without recursion); it is
modelled as the identity. -/
def enchant_trie_insert : Trie → List Nat → Trie
  | Trie.null, word => Trie.node (some word) none
  | Trie.eos, _ => Trie.eos
  | Trie.node none none, word => Trie.node (some word) none
  | Trie.node none (some ts), [] => Trie.node none (some (ainsert ts [] Trie.eos))
  | Trie.node none (some ts), c :: rest =>
      Trie.node none (some (ainsert ts [c]
        (enchant_trie_insert ((alookup ts [c]).getD Trie.null) rest)))
  | Trie.node (some v) _, [] =>
      Trie.node none (some (ainsert (singletonTable v) [] Trie.eos))
  | Trie.node (some v) _, c :: rest =>
      Trie.node none (some (ainsert (singletonTable v) [c]
        (enchant_trie_insert ((alookup (singletonTable v) [c]).getD Trie.null) rest)))

/-- The promotion branch of enchant_trie_insert literally performs two
recursive insertions into a freshly-emptied node; the definition above
unfolds the first of them.  This lemma recovers the original shape. -/
theorem enchant_trie_insert_promote (v : List Nat) (st : Option (List (List Nat × Trie))) (word : List Nat) :
    enchant_trie_insert (Trie.node (some v) st) word =
      enchant_trie_insert (enchant_trie_insert (Trie.node none (some [])) v) word := by
  cases v with
  | nil =>
    cases word <;> simp [enchant_trie_insert, singletonTable, ainsert]
  | cons c cs =>
    cases word <;> simp [enchant_trie_insert, singletonTable, ainsert]

/-- A node whose `value` and `subtries` are both NULL, the emptiness test
`subtrie->subtries == NULL && subtrie->value == NULL` at line 763 of
pwl.c.  Note that the shared EOS sentinel also satisfies the C test (both
its fields are NULL); `Trie.null` would be a NULL dereference there. -/
def isEmptyNode : Trie → Bool
  | Trie.eos => true
  | Trie.node none none => true
  | _ => false

/-- The collapse step at lines 771-787 of pwl.c: when the subtries table
holds exactly one entry whose subtrie carries a value, the node becomes a
leaf holding the key concatenated with that value; a single child without
a value (the EOS sentinel or a branch) is left alone. -/
def collapseSingle (ts : List (List Nat × Trie)) : Trie :=
  match ts with
  | [(k, Trie.node (some v) _)] => Trie.node (some (k ++ v)) none
  | _ => Trie.node none (some ts)

/-- enchant_trie_remove (pwl.c lines 746-796), with the in-place mutation
turned into a returned trie.  On a NULL trie or the EOS sentinel nothing
happens; on a value-bearing node the value is cleared when it equals the
word; on a branch the child-update phase of lines 751-769 runs (remove
the end-of-string key, or recurse into the child for the first scalar and
drop the child if it became empty) followed by the single-leaf-child
collapse of lines 771-787.  When the word needs a child that is not
present, the C code dereferences a NULL subtrie at line 763; that case
(removing an absent word, unreachable through the PWL layer) is modelled
as leaving the node unchanged. -/
def enchant_trie_remove : Trie → List Nat → Trie
  | Trie.null, _ => Trie.null
  | Trie.eos, _ => Trie.eos
  | Trie.node none none, _ => Trie.node none none
  | Trie.node none (some ts), [] => collapseSingle (aremove ts [])
  | Trie.node none (some ts), c :: rest =>
      match alookup ts [c] with
      | none => Trie.node none (some ts)
      | some sub =>
          let sub2 := enchant_trie_remove sub rest
          if isEmptyNode sub2 then collapseSingle (aremove ts [c])
          else collapseSingle (ainsert ts [c] sub2)
  | Trie.node (some v) st, word =>
      if v = word then Trie.node none st else Trie.node (some v) st

/-- The child-update phase of enchant_trie_remove on a branch node taken
alone (pwl.c lines 751-769), before the collapse block runs: the updated
subtries table, or `none` in the absent-child case where the C code would
dereference NULL. -/
def enchant_trie_remove_phase (ts : List (List Nat × Trie)) (word : List Nat) :
    Option (List (List Nat × Trie)) :=
  match word with
  | [] => some (aremove ts [])
  | c :: rest =>
      match alookup ts [c] with
      | none => none
      | some sub =>
          let sub2 := enchant_trie_remove sub rest
          if isEmptyNode sub2 then some (aremove ts [c]) else some (ainsert ts [c] sub2)

/-- The head key of a query word: the UTF-8 form of its first scalar, or
the empty string once the word is exhausted (this is what
`g_strndup(word, nxtCh)` produces at the NUL terminator). -/
def headKey (w : List Nat) : List Nat :=
  match w with
  | [] => []
  | c :: _ => [c]

/-- Structural membership: the set of words stored in a trie.  The word
stored at a value-bearing node is its value; a branch stores, for each
single-scalar key, the words of the child prefixed by that scalar, and
accepts the empty word when the end-of-string key maps to a trie
accepting the empty word. -/
def trieContains (t : Trie) (w : List Nat) : Bool :=
  match t with
  | Trie.null => false
  | Trie.eos => w.isEmpty
  | Trie.node (some v) _ => w = v
  | Trie.node none none => false
  | Trie.node none (some ts) =>
      match h : alookup ts (headKey w) with
      | some t2 => trieContains t2 w.tail
      | none => false
termination_by sizeOf t
decreasing_by
  have h1 := List.sizeOf_lt_of_mem (alookup_mem h)
  simp only [Prod.mk.sizeOf_spec] at h1
  simp only [Trie.node.sizeOf_spec, Option.some.sizeOf_spec]
  omega

/-- Loop body of enchant_is_all_caps (pwl.c lines 443-488): walk the
scalars; an uppercase letter records a capital, a titlecase or lowercase
letter returns 0 immediately, every other category is skipped. -/
def allCapsLoop (m : UniModel) : List Nat → Bool → Bool
  | [], hasCap => hasCap
  | c :: it, hasCap =>
    match m.cat c with
    | CharCat.upper => allCapsLoop m it true
    | CharCat.title => false
    | CharCat.lower => false
    | CharCat.other => allCapsLoop m it hasCap

/-- enchant_is_all_caps (pwl.c lines 439-489).  The guard
g_return_val_if_fail(word && *word, 0) makes the empty word report 0. -/
def enchant_is_all_caps (m : UniModel) (w : List Nat) : Bool :=
  match w with
  | [] => false
  | _ => allCapsLoop m w false

/-- Loop of enchant_is_title_case over the scalars after the first
(pwl.c lines 501-506): any uppercase or titlecase letter refutes. -/
def titleRestOk (m : UniModel) : List Nat → Bool
  | [] => true
  | c :: it =>
    match m.cat c with
    | CharCat.upper => false
    | CharCat.title => false
    | _ => titleRestOk m it

/-- enchant_is_title_case (pwl.c lines 491-509): the first scalar must be
an uppercase or titlecase letter equal to its own titlecase form, and no
later scalar may be uppercase or titlecase.  The empty word reports 0 via
the g_return_val_if_fail guard. -/
def enchant_is_title_case (m : UniModel) (w : List Nat) : Bool :=
  match w with
  | [] => false
  | ch :: rest =>
      if (m.cat ch = CharCat.upper ∨ m.cat ch = CharCat.title) ∧ ch = m.totitle ch
      then titleRestOk m rest
      else false

/-- enchant_utf8_strtitle (pwl.c lines 511-525): uppercase the whole
string, replace its first scalar by the titlecase form, and lowercase the
remainder. -/
def enchant_utf8_strtitle (m : UniModel) (str : List Nat) : List Nat :=
  let upperStr := m.strup str
  let title_case_char := m.totitle (upperStr.headD 0)
  [title_case_char] ++ m.strdown (upperStr.drop 1)

/-- ENCHANT_PWL_MAX_ERRORS (pwl.c line 70). -/
def ENCHANT_PWL_MAX_ERRORS : Nat := 3

/-- ENCHANT_PWL_MAX_SUGGS (pwl.c line 71). -/
def ENCHANT_PWL_MAX_SUGGS : Nat := 15

/-- Body of the inner loop of edit_dist (pwl.c lines 1028-1039): the new
value of table cell (i, j), read from the current table `t` with the
flat indexing `i*(len2+1)+j` of the source. -/
def edCell (word1 word2 : List Nat) (t : Nat → Nat) (i j : Nat) : Nat :=
  let len2 := word2.length
  let cost : Nat := if word1.getD (i - 1) 0 ≠ word2.getD (j - 1) 0 then 1 else 0
  let v1a := t ((i - 1) * (len2 + 1) + j) + 1
  let v1 := if i > 1 ∧ j > 1 ∧ word1.getD (i - 1) 0 = word2.getD (j - 2) 0 ∧
               word1.getD (i - 2) 0 = word2.getD (j - 1) 0
            then min v1a (t ((i - 2) * (len2 + 1) + (j - 2)) + cost)
            else v1a
  let v2 := t (i * (len2 + 1) + (j - 1)) + 1
  let v3 := t ((i - 1) * (len2 + 1) + (j - 1)) + cost
  min (min v1 v2) v3

/-- One iteration of the inner loop of edit_dist: store the new value of
cell (i, j) into the flat table. -/
def edStep (word1 word2 : List Nat) (t : Nat → Nat) (i j : Nat) : Nat → Nat :=
  Function.update t (i * (word2.length + 1) + j) (edCell word1 word2 t i j)

/-- edit_dist (pwl.c lines 1013-1047).  The two UTF-8 arguments are
decoded into scalar arrays by g_utf8_to_ucs4_fast; in this model words
already are scalar lists.  The `int` table allocated by g_new0 is
modelled as a zero-filled function from flat indices to values; the two
boundary loops (lines 1022-1025) and the doubly-nested fill loop (lines
1028-1040) follow the source, including the `i*(len2+1)+j` flat
indexing; the loops run `for (i = 1; i < len1+1; i++)`, hence the
`i0 + 1` / `j0 + 1` offsets over `List.range`. -/
def edit_dist (word1 word2 : List Nat) : Nat :=
  let len1 := word1.length
  let len2 := word2.length
  let t0 : Nat → Nat := fun _ => 0
  let t1 := (List.range (len1 + 1)).foldl (fun t i => Function.update t (i * (len2 + 1)) i) t0
  let t2 := (List.range (len2 + 1)).foldl (fun t i => Function.update t i i) t1
  let t3 := (List.range len1).foldl (fun t i0 =>
    (List.range len2).foldl (fun t j0 => edStep word1 word2 t (i0 + 1) (j0 + 1)) t) t2
  t3 (len1 * (len2 + 1) + len2)

/-- The Damerau-Levenshtein dynamic-programming recurrence exactly as the
specification states it: d(i,0)=i, d(0,j)=j, and d(i,j) is the minimum of
deletion, insertion and substitution, together with the transposition
term d(i-2,j-2)+cost available when i,j are at least 2 and the last two
scalars are swapped.  Indices are 1-based table coordinates; `a.getD
(i-1) 0` is the i-th scalar of `a`. -/
def dDL (a b : List Nat) : Nat → Nat → Nat
  | 0, j => j
  | i + 1, 0 => i + 1
  | i + 1, j + 1 =>
      let cost : Nat := if a.getD i 0 ≠ b.getD j 0 then 1 else 0
      let base := min (min (dDL a b i (j + 1) + 1) (dDL a b (i + 1) j + 1)) (dDL a b i j + cost)
      if i ≥ 1 ∧ j ≥ 1 ∧ a.getD i 0 = b.getD (j - 1) 0 ∧ a.getD (i - 1) 0 = b.getD j 0
      then min base (dDL a b (i - 1) (j - 1) + cost)
      else base
termination_by i j => i + j
decreasing_by all_goals omega

/-- Matcher search mode (pwl.c lines 111-116). -/
inductive MatcherMode where
  | case_sensitive : MatcherMode
  | case_insensitive : MatcherMode
deriving DecidableEq

/-- enchant_trie_get_subtrie (pwl.c lines 798-813): look the key up in
the subtries table; in case-insensitive mode a failed lookup is retried
with the uppercased key, which also replaces the key (the C code frees
the old `*nxtChS` and stores the uppercased string through the out
parameter).  Returns the found subtrie (or NULL) together with the
possibly replaced key. -/
def enchant_trie_get_subtrie (m : UniModel) (mode : MatcherMode) (t : Trie) (k : List Nat) :
    Option Trie × List Nat :=
  match t with
  | Trie.node _ (some ts) =>
      (match alookup ts k with
       | some sub => (some sub, k)
       | none =>
           if mode = MatcherMode.case_insensitive then
             let k2 := m.strup k
             (alookup ts k2, k2)
           else (none, k))
  | _ => (none, k)

theorem sizeOf_lt_of_alookup {ts : List (List Nat × Trie)} {k : List Nat} {sub : Trie}
    (h : alookup ts k = some sub) : sizeOf sub < sizeOf ts := by
  have h1 := List.sizeOf_lt_of_mem (alookup_mem h)
  simp only [Prod.mk.sizeOf_spec] at h1
  omega

theorem sizeOf_lt_of_get_subtrie {m : UniModel} {mode : MatcherMode} {t : Trie}
    {k : List Nat} {sub : Trie}
    (h : (enchant_trie_get_subtrie m mode t k).1 = some sub) : sizeOf sub < sizeOf t := by
  match t with
  | Trie.null => simp [enchant_trie_get_subtrie] at h
  | Trie.eos => simp [enchant_trie_get_subtrie] at h
  | Trie.node v none => simp [enchant_trie_get_subtrie] at h
  | Trie.node v (some ts) =>
    simp only [enchant_trie_get_subtrie] at h
    have hts : sizeOf ts < sizeOf (Trie.node v (some ts)) := by
      simp only [Trie.node.sizeOf_spec, Option.some.sizeOf_spec]
      omega
    cases hl : alookup ts k with
    | some s =>
      rw [hl] at h
      simp only [Option.some.injEq] at h
      subst h
      exact lt_trans (sizeOf_lt_of_alookup hl) hts
    | none =>
      rw [hl] at h
      by_cases hmode : mode = MatcherMode.case_insensitive
      · simp only [hmode, if_pos rfl] at h
        exact lt_trans (sizeOf_lt_of_alookup h) hts
      · simp [hmode] at h

section Matcher

variable {σ : Type} (m : UniModel) (mode : MatcherMode)
variable (cb : List Nat → Nat → Nat × σ → Nat × σ)
variable (word : List Nat)

/-!
The EnchantTrieMatcher of pwl.c, shallowly embedded.  The fixed parts
of the matcher state are parameters: `word` is the matcher word (already
normalised, and lowercased in case-insensitive mode, exactly what
enchant_trie_matcher_init at lines 946-979 stores), `mode` the matcher
mode and `cb` the callback, which receives the matched string and the
current error count, and may update the pair of the mutable max-error
budget and the private callback state (as enchant_pwl_suggest_cb does
through the max_errors and cbdata fields).  The mutable parts
appear as arguments: `pos` is `word_pos` (a scalar index; the C byte
offset always sits at a scalar boundary), `path` the path taken through
the trie, `ne` is `num_errors`, and `S` the threaded pair of
`max_errors` and callback state.  The C code restores `num_errors`,
`word_pos` and the path before returning, so only `S` is threaded.

`enchant_trie_find_matches` is pwl.c lines 815-898, and
`enchant_trie_find_matches_cb` is the g_hash_table_foreach callback of
lines 900-944; `enchant_trie_find_matches_list` is that foreach loop
(list order stands in for the unspecified hash iteration order).  A NULL
subtries table in the branch case makes the foreach a no-op (glib
g_hash_table_foreach on NULL logs a critical warning and returns).
-/
mutual

def enchant_trie_find_matches (t : Trie) (pos : Nat) (path : List Nat) (ne : Nat)
    (S : Nat × σ) : Nat × σ :=
  match t with
  | Trie.null => S
  | Trie.eos =>
      if ne > S.1 then S
      else
        let ne2 := ne + remBytes word pos
        if ne2 ≤ S.1 then cb path ne2 S else S
  | Trie.node (some v) _ =>
      if ne > S.1 then S
      else
        let v2 := if mode = MatcherMode.case_insensitive then m.strdown v else v
        let ne2 := ne + edit_dist v2 (word.drop pos)
        if ne2 ≤ S.1 then cb (path ++ v) ne2 S else S
  | Trie.node none stOpt =>
      if ne > S.1 then S
      else
        let ts := stOpt.getD []
        let rk := headKey (word.drop pos)
        let gs := enchant_trie_get_subtrie m mode (Trie.node none stOpt) rk
        let S1 := match h1 : gs.1 with
          | some sub => enchant_trie_find_matches sub (pos + 1) (path ++ gs.2) ne S
          | none => S
        let S2 := if hlt : pos < word.length
          then enchant_trie_find_matches (Trie.node none stOpt) (pos + 1) path (ne + 1) S1
          else S1
        enchant_trie_find_matches_list ts pos path (ne + 1) S2
termination_by (sizeOf t, word.length + 1 - pos, 0)
decreasing_by
  · exact Prod.Lex.left _ _ (sizeOf_lt_of_get_subtrie h1)
  · exact Prod.Lex.right _ (Prod.Lex.left _ _ (by omega))
  · refine Prod.Lex.left _ _ ?_
    cases stOpt with
    | none =>
        simp only [Option.getD_none, Trie.node.sizeOf_spec, Option.none.sizeOf_spec,
          List.nil.sizeOf_spec]
        omega
    | some ts0 =>
        simp only [Option.getD_some, Trie.node.sizeOf_spec, Option.some.sizeOf_spec]
        omega

def enchant_trie_find_matches_list (ts2 : List (List Nat × Trie)) (pos : Nat) (path : List Nat)
    (ne : Nat) (S : Nat × σ) : Nat × σ :=
  match ts2 with
  | [] => S
  | (k, sub) :: rest =>
      enchant_trie_find_matches_list rest pos path ne
        (enchant_trie_find_matches_cb k sub pos path ne S)
termination_by (sizeOf ts2, word.length + 1 - pos, 2)
decreasing_by
  · refine Prod.Lex.left _ _ ?_
    simp only [List.cons.sizeOf_spec, Prod.mk.sizeOf_spec]
    omega
  · refine Prod.Lex.left _ _ ?_
    simp only [List.cons.sizeOf_spec]
    omega

def enchant_trie_find_matches_cb (k : List Nat) (sub : Trie) (pos : Nat) (path : List Nat)
    (ne : Nat) (S : Nat × σ) : Nat × σ :=
  if k = headKey (word.drop pos) then S
  else
    let Sa := enchant_trie_find_matches sub pos (path ++ k) ne S
    let Sb := enchant_trie_find_matches sub (pos + 1) (path ++ k) ne Sa
    let gs2 := enchant_trie_get_subtrie m mode sub (headKey (word.drop pos))
    match h2 : gs2.1 with
    | some sub2 =>
        if k = headKey (word.drop (pos + 1)) then
          enchant_trie_find_matches sub2 (pos + 2) (path ++ k ++ gs2.2) ne Sb
        else Sb
    | none => Sb
termination_by (sizeOf sub, word.length + 1 - pos, 1)
decreasing_by
  · exact Prod.Lex.right _ (Prod.Lex.right _ (by omega))
  · rcases Nat.lt_or_ge pos (word.length + 1) with hc | hc
    · exact Prod.Lex.right _ (Prod.Lex.left _ _ (by omega))
    · have he : word.length + 1 - (pos + 1) = word.length + 1 - pos := by omega
      rw [he]
      exact Prod.Lex.right _ (Prod.Lex.right _ (by omega))
  · exact Prod.Lex.left _ _ (sizeOf_lt_of_get_subtrie h2)

end

end Matcher

/-- enchant_pwl_check_cb (pwl.c lines 559-563): frees the match and
increments the counter behind cbdata; max_errors is left alone. -/
def enchant_pwl_check_cb : List Nat → Nat → Nat × Nat → Nat × Nat :=
  fun _mtch _ne S => (S.1, S.2 + 1)

/-- The in-memory part of str_enchant_pwl (pwl.c lines 98-104): the trie
and the words_in_trie table mapping NFD-normalised keys to the original
words.  The backing file and its mtime are modelled separately
(`EnchantPWLFile`) where a claim needs them. -/
structure EnchantPWL where
  trie : Trie
  words_in_trie : List (List Nat × List Nat)

/-- enchant_pwl_contains (pwl.c lines 428-437): run the matcher over the
trie in case-sensitive mode with zero allowed errors and count the
matches; the word is NFD-normalised by enchant_trie_matcher_init.
enchant_pwl_refresh_from_file, called by the public operations, is
modelled as a no-op: the backing file is assumed unchanged since the
last recorded mtime, so the refresh returns at once (pwl.c line 226). -/
def enchant_pwl_contains (m : UniModel) (pwl : EnchantPWL) (w : List Nat) : Bool :=
  (enchant_trie_find_matches m MatcherMode.case_sensitive enchant_pwl_check_cb (m.nfd w)
     pwl.trie 0 [] 0 (0, 0)).2 != 0

/-- enchant_pwl_check (pwl.c lines 527-556): 0 when the word, as given,
is contained; otherwise, for a title-case word, try the lowercased form;
for an all-caps word (the all-caps test is only evaluated when the
title-case test failed, per the short-circuit at line 537), try the
lowercased and then the title-cased form; otherwise 1. -/
def enchant_pwl_check (m : UniModel) (pwl : EnchantPWL) (w : List Nat) : Nat :=
  if enchant_pwl_contains m pwl w then 0
  else
    let isTitle := enchant_is_title_case m w
    let isAllCaps := if isTitle then false else enchant_is_all_caps m w
    if isTitle || isAllCaps then
      if enchant_pwl_contains m pwl (m.strdown w) then 0
      else if isAllCaps then
        if enchant_pwl_contains m pwl (enchant_utf8_strtitle m w) then 0 else 1
      else 1
    else 1

/-- enchant_pwl_add_to_trie (pwl.c lines 283-295): normalise the word;
if the normalised form is already a key of words_in_trie do nothing at
all; otherwise record the original under the normalised key and insert
the normalised form into the trie. -/
def enchant_pwl_add_to_trie (m : UniModel) (pwl : EnchantPWL) (w : List Nat) : EnchantPWL :=
  let normalized_word := m.nfd w
  match alookup pwl.words_in_trie normalized_word with
  | some _ => pwl
  | none =>
      { trie := enchant_trie_insert pwl.trie normalized_word
        words_in_trie := ainsert pwl.words_in_trie normalized_word w }

/-- enchant_pwl_remove_from_trie (pwl.c lines 297-312): when the
normalised form is a key of words_in_trie, drop the key and remove the
word from the trie, resetting the root to NULL when it was left with
NULL value and NULL subtries (`isEmptyNode`). -/
def enchant_pwl_remove_from_trie (m : UniModel) (pwl : EnchantPWL) (w : List Nat) : EnchantPWL :=
  let normalized_word := m.nfd w
  match alookup pwl.words_in_trie normalized_word with
  | none => pwl
  | some _ =>
      let t2 := enchant_trie_remove pwl.trie normalized_word
      { trie := if isEmptyNode t2 then Trie.null else t2
        words_in_trie := aremove pwl.words_in_trie normalized_word }

/-- The position scan of enchant_pwl_suggest_cb (pwl.c lines 650-661):
walk the suggestion list; stop (returning the index) at the first entry
whose error count exceeds the incoming one; return `none` (the C early
return) when the match is already present among the entries scanned. -/
def suggFindLoc (mtch : List Nat) (ne : Nat) : List (List Nat × Nat) → Option Nat
  | [] => some 0
  | (s, e) :: rest =>
      if e > ne then some 0
      else if s = mtch then none
      else (suggFindLoc mtch ne rest).map (fun x => x + 1)

/-- enchant_pwl_suggest_cb (pwl.c lines 640-679).  The state pair holds
the matcher max-error budget (tightened to the incoming error count at
lines 645-646) and the suggestion list, each entry a string with its
error count (the suggs and sugg_errs parallel arrays).  A match already
listed is dropped; one that would land at or beyond
ENCHANT_PWL_MAX_SUGGS is dropped; otherwise every entry from the landing
position on is discarded and the match is appended there. -/
def enchant_pwl_suggest_cb (mtch : List Nat) (ne : Nat) (S : Nat × List (List Nat × Nat)) :
    Nat × List (List Nat × Nat) :=
  let mE := if ne < S.1 then ne else S.1
  match suggFindLoc mtch ne S.2 with
  | none => (mE, S.2)
  | some loc =>
      if loc ≥ ENCHANT_PWL_MAX_SUGGS then (mE, S.2)
      else (mE, S.2.take loc ++ [(mtch, ne)])

/-- best_distance (pwl.c lines 591-606): the smallest edit distance from
the NFD form of the word to the NFD forms of the given suggestions,
seeded with the scalar length of the normalised word. -/
def best_distance (m : UniModel) (suggs : List (List Nat)) (w : List Nat) : Nat :=
  let normalized_word := m.nfd w
  suggs.foldl (fun best s => min (edit_dist normalized_word (m.nfd s)) best)
    normalized_word.length

/-- The core of enchant_pwl_suggest (pwl.c lines 610-631): compute the
budget `max_dist` (the best baseline distance when baseline suggestions
are given, ENCHANT_PWL_MAX_ERRORS otherwise, capped at
ENCHANT_PWL_MAX_ERRORS) and run the matcher in case-insensitive mode
over the trie with enchant_pwl_suggest_cb; the matcher word is the
lowercased NFD form of the query.  Returns `max_dist` and the final
matcher state. -/
def enchant_pwl_suggest_core (m : UniModel) (pwl : EnchantPWL) (w : List Nat)
    (suggs : Option (List (List Nat))) : Nat × (Nat × List (List Nat × Nat)) :=
  let max_dist0 := match suggs with
    | some l => best_distance m l w
    | none => ENCHANT_PWL_MAX_ERRORS
  let max_dist := min max_dist0 ENCHANT_PWL_MAX_ERRORS
  (max_dist,
    enchant_trie_find_matches m MatcherMode.case_insensitive enchant_pwl_suggest_cb
      (m.strdown (m.nfd w)) pwl.trie 0 [] 0 (max_dist, []))

/-- enchant_pwl_case_and_denormalize_suggestions (pwl.c lines 565-589):
replace each suggested normalised key by the original word stored for it
in words_in_trie; when the query word is title-case (resp. all-caps),
convert the original to title case (resp. upper case) unless the
original is itself all-caps.  A key missing from words_in_trie would be
a NULL dereference in C (suggestions always come from the trie); it is
modelled by the empty word default. -/
def enchant_pwl_case_and_denormalize_suggestions (m : UniModel) (pwl : EnchantPWL)
    (w : List Nat) (suggs_list : List (List Nat)) : List (List Nat) :=
  suggs_list.map (fun s =>
    let suggestion := (alookup pwl.words_in_trie s).getD []
    if enchant_is_title_case m w then
      if enchant_is_all_caps m suggestion then suggestion
      else enchant_utf8_strtitle m suggestion
    else if enchant_is_all_caps m w then
      if enchant_is_all_caps m suggestion then suggestion
      else m.strup suggestion
    else suggestion)

/-- enchant_pwl_suggest (pwl.c lines 610-637): the matcher run followed
by case restoration and denormalisation of the collected strings. -/
def enchant_pwl_suggest (m : UniModel) (pwl : EnchantPWL) (w : List Nat)
    (suggs : Option (List (List Nat))) : List (List Nat) :=
  let core := enchant_pwl_suggest_core m pwl w suggs
  enchant_pwl_case_and_denormalize_suggestions m pwl w (core.2.2.map Prod.fst)

/-- A PWL together with its backing file; the file content is modelled
at the scalar level (newline is scalar 10; the byte the C code inspects
with `fseek(f, -1, SEEK_END)` is the last byte of the last scalar, which
equals a newline byte exactly when the last scalar is a newline). -/
structure EnchantPWLFile where
  trie : Trie
  words_in_trie : List (List Nat × List Nat)
  file : List Nat

/-- The file append of enchant_pwl_add (pwl.c lines 321-351): ensure a
trailing newline (skipped when the file is empty, where the fseek to -1
fails), then write the word and a newline. -/
def pwl_file_append (f : List Nat) (w : List Nat) : List Nat :=
  let f2 := if f ≠ [] ∧ f.getLast? ≠ some 10 then f ++ [10] else f
  f2 ++ w ++ [10]

/-- enchant_pwl_add (pwl.c lines 314-352): refresh (a no-op here, as the
file has not been touched externally), add the word to the trie and the
words_in_trie table, and append the original word to the backing file. -/
def enchant_pwl_add (m : UniModel) (p : EnchantPWLFile) (w : List Nat) : EnchantPWLFile :=
  let mem := enchant_pwl_add_to_trie m { trie := p.trie, words_in_trie := p.words_in_trie } w
  { trie := mem.trie, words_in_trie := mem.words_in_trie, file := pwl_file_append p.file w }

/-- Tries reachable from the empty trie (the NULL pointer) by any
sequence of enchant_trie_insert and enchant_trie_remove operations. -/
inductive TrieReach : Trie → Prop where
  | start : TrieReach Trie.null
  | ins (t : Trie) (w : List Nat) : TrieReach t → TrieReach (enchant_trie_insert t w)
  | rem (t : Trie) (w : List Nat) : TrieReach t → TrieReach (enchant_trie_remove t w)

/-- C6 counterexample: the trie reached from the empty trie by inserting
the two words [1,2] and [1,3] is a Branch node (a node with a subtries
table and no value) with exactly ONE child, refuting the claimed
invariant that every Branch node of a reachable trie has at least 2
children.  The shared one-scalar prefix [1] yields a chain: the root
holds the single key [1]. -/
theorem enchant_trie_branch_single_child_reachable :
    TrieReach (enchant_trie_insert (enchant_trie_insert Trie.null [1, 2]) [1, 3]) ∧
    enchant_trie_insert (enchant_trie_insert Trie.null [1, 2]) [1, 3] =
      Trie.node none (some [([1], Trie.node none
        (some [([2], Trie.node (some []) none), ([3], Trie.node (some []) none)]))]) ∧
    [([1], Trie.node none
        (some [([2], Trie.node (some []) none), ([3], Trie.node (some []) none)]))].length < 2 :=
  ⟨TrieReach.ins _ _ (TrieReach.ins _ _ TrieReach.start), rfl, by decide⟩

/-- C6 amended: what does hold is the local collapse rule of
enchant_trie_remove: whenever the child-update phase of a removal leaves
the branch with exactly one child and that child is a value-bearing
leaf, the branch is collapsed into a leaf whose value is the key
concatenated with the child value; a single child without a value (such
as the EOS sentinel) is left uncollapsed. -/
theorem enchant_trie_remove_collapse_rule :
    (∀ (ts : List (List Nat × Trie)) (word k v : List Nat) (st : Option (List (List Nat × Trie))),
      enchant_trie_remove_phase ts word = some [(k, Trie.node (some v) st)] →
      enchant_trie_remove (Trie.node none (some ts)) word = Trie.node (some (k ++ v)) none) ∧
    (∀ (ts : List (List Nat × Trie)) (word : List Nat),
      enchant_trie_remove_phase ts word = some [([], Trie.eos)] →
      enchant_trie_remove (Trie.node none (some ts)) word =
        Trie.node none (some [([], Trie.eos)])) := by
  constructor
  · intro ts word k v st h
    match word with
    | [] =>
      simp only [enchant_trie_remove_phase, Option.some.injEq] at h
      show collapseSingle (aremove ts []) = Trie.node (some (k ++ v)) none
      rw [h]
      rfl
    | c :: rest =>
      simp only [enchant_trie_remove_phase] at h
      cases hl : alookup ts [c] with
      | none => rw [hl] at h; exact Option.noConfusion h
      | some sub =>
        rw [hl] at h
        replace h : (if isEmptyNode (enchant_trie_remove sub rest) = true
            then some (aremove ts [c])
            else some (ainsert ts [c] (enchant_trie_remove sub rest)))
            = some [(k, Trie.node (some v) st)] := h
        show (match alookup ts [c] with
          | none => Trie.node none (some ts)
          | some sub =>
              if isEmptyNode (enchant_trie_remove sub rest)
              then collapseSingle (aremove ts [c])
              else collapseSingle (ainsert ts [c] (enchant_trie_remove sub rest)))
          = Trie.node (some (k ++ v)) none
        rw [hl]
        show (if isEmptyNode (enchant_trie_remove sub rest) = true
            then collapseSingle (aremove ts [c])
            else collapseSingle (ainsert ts [c] (enchant_trie_remove sub rest)))
          = Trie.node (some (k ++ v)) none
        by_cases he : isEmptyNode (enchant_trie_remove sub rest) = true
        · rw [if_pos he] at h ⊢
          rw [Option.some.injEq] at h
          rw [h]
          rfl
        · rw [if_neg he] at h ⊢
          rw [Option.some.injEq] at h
          rw [h]
          rfl
  · intro ts word h
    match word with
    | [] =>
      simp only [enchant_trie_remove_phase, Option.some.injEq] at h
      show collapseSingle (aremove ts []) = Trie.node none (some [([], Trie.eos)])
      rw [h]
      rfl
    | c :: rest =>
      simp only [enchant_trie_remove_phase] at h
      cases hl : alookup ts [c] with
      | none => rw [hl] at h; exact Option.noConfusion h
      | some sub =>
        rw [hl] at h
        replace h : (if isEmptyNode (enchant_trie_remove sub rest) = true
            then some (aremove ts [c])
            else some (ainsert ts [c] (enchant_trie_remove sub rest)))
            = some [([], Trie.eos)] := h
        show (match alookup ts [c] with
          | none => Trie.node none (some ts)
          | some sub =>
              if isEmptyNode (enchant_trie_remove sub rest)
              then collapseSingle (aremove ts [c])
              else collapseSingle (ainsert ts [c] (enchant_trie_remove sub rest)))
          = Trie.node none (some [([], Trie.eos)])
        rw [hl]
        show (if isEmptyNode (enchant_trie_remove sub rest) = true
            then collapseSingle (aremove ts [c])
            else collapseSingle (ainsert ts [c] (enchant_trie_remove sub rest)))
          = Trie.node none (some [([], Trie.eos)])
        by_cases he : isEmptyNode (enchant_trie_remove sub rest) = true
        · rw [if_pos he] at h ⊢
          rw [Option.some.injEq] at h
          rw [h]
          rfl
        · rw [if_neg he] at h ⊢
          rw [Option.some.injEq] at h
          rw [h]
          rfl

/-- Witness for the collapse rule: removing [1,2] from the branch with
children [1] -> Leaf [2] and [3] -> Leaf [4] leaves one leaf child,
which is collapsed into Leaf [3,4]. -/
theorem enchant_trie_remove_collapse_rule_witness :
    enchant_trie_remove_phase [([1], Trie.node (some [2]) none), ([3], Trie.node (some [4]) none)]
        [1, 2] = some [([3], Trie.node (some [4]) none)] ∧
    enchant_trie_remove (Trie.node none (some [([1], Trie.node (some [2]) none),
        ([3], Trie.node (some [4]) none)])) [1, 2] = Trie.node (some [3, 4]) none :=
  ⟨rfl, enchant_trie_remove_collapse_rule.1 _ [1, 2] [3] [4] none rfl⟩

/-- C5 counterexample: inserting the one-scalar word [97] into the leaf
that already stores [97] is NOT a no-op: the code takes the promotion
branch unconditionally (enchant_trie_insert never compares the leaf
value with the word), so the leaf is rebuilt into a chain of single-child
branch nodes ending in an EOS entry. -/
theorem enchant_trie_insert_leaf_same_not_noop :
    enchant_trie_insert (Trie.node (some [97]) none) [97] ≠ Trie.node (some [97]) none := by
  have he : enchant_trie_insert (Trie.node (some [97]) none) [97] =
      Trie.node none (some [([97], Trie.node none (some [([], Trie.eos)]))]) := rfl
  rw [he]
  intro h
  injection h with h1 h2
  exact Option.noConfusion h1

/-- The branch chain that enchant_trie_insert builds when a leaf value
is reinserted over itself: one single-child branch per scalar, ending in
a branch holding only the EOS entry. -/
def chainOf : List Nat → Trie
  | [] => Trie.node none (some [([], Trie.eos)])
  | c :: cs => Trie.node none (some [([c], chainOf cs)])

@[simp] theorem trieContains_null (w : List Nat) : trieContains Trie.null w = false := by
  rw [trieContains]

@[simp] theorem trieContains_eos (w : List Nat) : trieContains Trie.eos w = w.isEmpty := by
  rw [trieContains]

@[simp] theorem trieContains_value (v : List Nat) (st : Option (List (List Nat × Trie)))
    (w : List Nat) : trieContains (Trie.node (some v) st) w = decide (w = v) := by
  rw [trieContains]

@[simp] theorem trieContains_nn (w : List Nat) :
    trieContains (Trie.node none none) w = false := by
  rw [trieContains]

theorem trieContains_branch (ts : List (List Nat × Trie)) (w : List Nat) :
    trieContains (Trie.node none (some ts)) w =
      match alookup ts (headKey w) with
      | some t2 => trieContains t2 w.tail
      | none => false := by
  rw [trieContains]
  split
  next t2 heq => rw [heq]
  next heq => rw [heq]

theorem insert_leaf_self_eq_chain (v : List Nat) (st : Option (List (List Nat × Trie))) :
    enchant_trie_insert (Trie.node (some v) st) v = chainOf v := by
  induction v generalizing st with
  | nil => rfl
  | cons c cs ih =>
    show Trie.node none (some (ainsert (singletonTable (c :: cs)) [c]
      (enchant_trie_insert ((alookup (singletonTable (c :: cs)) [c]).getD Trie.null) cs))) =
      chainOf (c :: cs)
    have h1 : alookup (singletonTable (c :: cs)) [c] = some (Trie.node (some cs) none) := by
      simp [singletonTable, alookup]
    rw [h1]
    show Trie.node none (some (ainsert [([c], Trie.node (some cs) none)] [c]
      (enchant_trie_insert (Trie.node (some cs) none) cs))) = chainOf (c :: cs)
    rw [ih none]
    simp [ainsert, chainOf]

theorem chainOf_contains (v x : List Nat) :
    trieContains (chainOf v) x = decide (x = v) := by
  induction v generalizing x with
  | nil =>
    cases x with
    | nil => rw [chainOf, trieContains_branch]; simp [headKey, alookup]
    | cons c cs => rw [chainOf, trieContains_branch]; simp [headKey, alookup]
  | cons a as ih =>
    cases x with
    | nil => rw [chainOf, trieContains_branch]; simp [headKey, alookup]
    | cons c cs =>
      rw [chainOf, trieContains_branch]
      simp only [headKey, alookup, alookup_nil, List.tail_cons]
      by_cases hca : a = c
      · subst hca
        rw [if_pos rfl]
        simp [ih]
      · rw [if_neg (by simpa using hca)]
        simp [Ne.symm hca]

/-- C5 amended: inserting `v` into a leaf that already stores `v` is not
structurally a no-op (see the counterexample), but it is a no-op up to
the set of stored words: the resulting branch chain contains exactly the
words of the original leaf.  (The PWL layer never performs such an
insert: enchant_pwl_add_to_trie deduplicates through words_in_trie.) -/
theorem enchant_trie_insert_leaf_self_semantically_idempotent (v x : List Nat) :
    trieContains (enchant_trie_insert (Trie.node (some v) none) v) x =
      trieContains (Trie.node (some v) none) x := by
  rw [insert_leaf_self_eq_chain v none, chainOf_contains]
  simp [trieContains]

/-- C10: enchant_pwl_add_to_trie is a no-op when the NFD form of the
word is already a key of words_in_trie: the trie is untouched and the
stored original-cased form is kept (first-seen casing wins); no
duplicate insert ever reaches the trie. -/
theorem enchant_pwl_add_to_trie_frame (m : UniModel) (pwl : EnchantPWL) (w : List Nat)
    (h : (alookup pwl.words_in_trie (m.nfd w)).isSome) :
    enchant_pwl_add_to_trie m pwl w = pwl := by
  show (match alookup pwl.words_in_trie (m.nfd w) with
    | some _ => pwl
    | none => { trie := enchant_trie_insert pwl.trie (m.nfd w),
                words_in_trie := ainsert pwl.words_in_trie (m.nfd w) w }) = pwl
  cases hl : alookup pwl.words_in_trie (m.nfd w) with
  | none => rw [hl] at h; simp at h
  | some v => rfl

/-- Witness for the frame property of enchant_pwl_add_to_trie at a
concrete state: [97] is present, adding it again changes nothing. -/
theorem enchant_pwl_add_to_trie_frame_witness :
    enchant_pwl_add_to_trie asciiModel
        { trie := Trie.node (some [97]) none, words_in_trie := [([97], [97])] } [97] =
      { trie := Trie.node (some [97]) none, words_in_trie := [([97], [97])] } :=
  enchant_pwl_add_to_trie_frame asciiModel
    { trie := Trie.node (some [97]) none, words_in_trie := [([97], [97])] } [97] (by decide)

/-- C8 counterexample: adding the same word twice through
enchant_pwl_add appends it to the backing file twice; the file after the
second add differs from the file after the first add by a whole word
line, not merely by a trailing newline. -/
theorem enchant_pwl_add_twice_file_not_idempotent :
    (enchant_pwl_add asciiModel
        (enchant_pwl_add asciiModel ⟨Trie.null, [], []⟩ [97]) [97]).file ≠
      (enchant_pwl_add asciiModel ⟨Trie.null, [], []⟩ [97]).file ∧
    (enchant_pwl_add asciiModel
        (enchant_pwl_add asciiModel ⟨Trie.null, [], []⟩ [97]) [97]).file ≠
      (enchant_pwl_add asciiModel ⟨Trie.null, [], []⟩ [97]).file ++ [10] := by
  constructor <;> decide

theorem pwl_file_append_getLast (f w : List Nat) :
    (pwl_file_append f w).getLast? = some 10 := by
  show ((if f ≠ [] ∧ f.getLast? ≠ some 10 then f ++ [10] else f) ++ w ++ [10]).getLast? = some 10
  rw [List.append_assoc]
  rw [List.getLast?_append_of_ne_nil _ (by simp)]
  rw [List.getLast?_append_of_ne_nil _ (by simp : ([10] : List Nat) ≠ [])]
  rfl

theorem enchant_pwl_add_to_trie_twice (m : UniModel) (pwl : EnchantPWL) (w : List Nat) :
    enchant_pwl_add_to_trie m (enchant_pwl_add_to_trie m pwl w) w =
      enchant_pwl_add_to_trie m pwl w := by
  cases hl : alookup pwl.words_in_trie (m.nfd w) with
  | some v =>
    have h1 : enchant_pwl_add_to_trie m pwl w = pwl :=
      enchant_pwl_add_to_trie_frame m pwl w (by rw [hl]; rfl)
    rw [h1, h1]
  | none =>
    have h2 : enchant_pwl_add_to_trie m pwl w =
        { trie := enchant_trie_insert pwl.trie (m.nfd w),
          words_in_trie := ainsert pwl.words_in_trie (m.nfd w) w } := by
      show (match alookup pwl.words_in_trie (m.nfd w) with
        | some _ => pwl
        | none => { trie := enchant_trie_insert pwl.trie (m.nfd w),
                    words_in_trie := ainsert pwl.words_in_trie (m.nfd w) w }) =
        { trie := enchant_trie_insert pwl.trie (m.nfd w),
          words_in_trie := ainsert pwl.words_in_trie (m.nfd w) w }
      rw [hl]
    rw [h2]
    apply enchant_pwl_add_to_trie_frame
    show (alookup (ainsert pwl.words_in_trie (m.nfd w) w) (m.nfd w)).isSome = true
    rw [alookup_ainsert]
    rfl

/-- C8 amended: adding the same word twice leaves the trie and the
words_in_trie table identical to adding it once, but the backing file
gains a second copy of the word line: the file after the second add is
the file after the first add followed by the word and a newline
(enchant_pwl_add appends unconditionally, lines 321-351 of pwl.c). -/
theorem enchant_pwl_add_twice (m : UniModel) (p : EnchantPWLFile) (w : List Nat) :
    (enchant_pwl_add m (enchant_pwl_add m p w) w).trie = (enchant_pwl_add m p w).trie ∧
    (enchant_pwl_add m (enchant_pwl_add m p w) w).words_in_trie =
      (enchant_pwl_add m p w).words_in_trie ∧
    (enchant_pwl_add m (enchant_pwl_add m p w) w).file =
      (enchant_pwl_add m p w).file ++ w ++ [10] := by
  refine ⟨?_, ?_, ?_⟩
  · show (enchant_pwl_add_to_trie m
        (enchant_pwl_add_to_trie m { trie := p.trie, words_in_trie := p.words_in_trie } w) w).trie =
      (enchant_pwl_add_to_trie m { trie := p.trie, words_in_trie := p.words_in_trie } w).trie
    rw [enchant_pwl_add_to_trie_twice]
  · show (enchant_pwl_add_to_trie m
        (enchant_pwl_add_to_trie m { trie := p.trie, words_in_trie := p.words_in_trie } w) w).words_in_trie =
      (enchant_pwl_add_to_trie m { trie := p.trie, words_in_trie := p.words_in_trie } w).words_in_trie
    rw [enchant_pwl_add_to_trie_twice]
  · show pwl_file_append (enchant_pwl_add m p w).file w = (enchant_pwl_add m p w).file ++ w ++ [10]
    have hlast : (enchant_pwl_add m p w).file.getLast? = some 10 := pwl_file_append_getLast _ _
    have hc : ¬((enchant_pwl_add m p w).file ≠ [] ∧
        (enchant_pwl_add m p w).file.getLast? ≠ some 10) := by
      intro hcc
      exact hcc.2 hlast
    show (if (enchant_pwl_add m p w).file ≠ [] ∧ (enchant_pwl_add m p w).file.getLast? ≠ some 10
        then (enchant_pwl_add m p w).file ++ [10] else (enchant_pwl_add m p w).file) ++ w ++ [10] =
      (enchant_pwl_add m p w).file ++ w ++ [10]
    rw [if_neg hc]

theorem foldl_update_eval (L : List Nat) (t : Nat → Nat) (f g : Nat → Nat) (x : Nat) :
    (L.foldl (fun acc i => Function.update acc (f i) (g i)) t) x =
      match L.reverse.find? (fun i => f i == x) with
      | some i => g i
      | none => t x := by
  induction L generalizing t with
  | nil => simp
  | cons hd rest ih =>
    simp only [List.foldl_cons, List.reverse_cons, List.find?_append]
    rw [ih]
    cases hfind : rest.reverse.find? (fun i => f i == x) with
    | some i => simp [Option.or]
    | none =>
      simp only [Option.or, List.find?]
      by_cases hp : f hd = x
      · simp only [hp, beq_self_eq_true, Function.update]
        simp [hp]
      · have : (f hd == x) = false := by simp [hp]
        simp only [this]
        rw [Function.update_noteq (by intro hc; exact hp hc.symm) _ t]

theorem init_table_boundary (a b : List Nat) :
    (∀ j, j ≤ b.length →
      ((List.range (b.length + 1)).foldl (fun t i => Function.update t i i)
        ((List.range (a.length + 1)).foldl
          (fun t i => Function.update t (i * (b.length + 1)) i) (fun _ => 0))) j = j) ∧
    (∀ i, i ≤ a.length →
      ((List.range (b.length + 1)).foldl (fun t i => Function.update t i i)
        ((List.range (a.length + 1)).foldl
          (fun t i => Function.update t (i * (b.length + 1)) i) (fun _ => 0)))
        (i * (b.length + 1)) = i) := by
  have h2 : ∀ x, ((List.range (b.length + 1)).foldl (fun t i => Function.update t i i)
      ((List.range (a.length + 1)).foldl
        (fun t i => Function.update t (i * (b.length + 1)) i) (fun _ => 0))) x =
      match (List.range (b.length + 1)).reverse.find? (fun i => i == x) with
      | some i => i
      | none => ((List.range (a.length + 1)).foldl
          (fun t i => Function.update t (i * (b.length + 1)) i) (fun _ => 0)) x := by
    intro x
    exact foldl_update_eval (List.range (b.length + 1)) _ (fun i => i) (fun i => i) x
  have h1 : ∀ x, ((List.range (a.length + 1)).foldl
      (fun t i => Function.update t (i * (b.length + 1)) i) (fun _ => 0)) x =
      match (List.range (a.length + 1)).reverse.find? (fun i => i * (b.length + 1) == x) with
      | some i => i
      | none => 0 := by
    intro x
    exact foldl_update_eval (List.range (a.length + 1)) _ (fun i => i * (b.length + 1))
      (fun i => i) x
  constructor
  · intro j hj
    rw [h2]
    cases hfind : (List.range (b.length + 1)).reverse.find? (fun i => i == j) with
    | some i =>
      have := List.find?_some hfind
      simp only [beq_iff_eq] at this
      simp [this]
    | none =>
      exfalso
      rw [List.find?_eq_none] at hfind
      exact hfind j (by simp [List.mem_reverse, List.mem_range]; omega) (by simp)
  · intro i hi
    rw [h2]
    cases hfind : (List.range (b.length + 1)).reverse.find? (fun k => k == i * (b.length + 1)) with
    | some k =>
      have hk := List.find?_some hfind
      have hmem := List.mem_reverse.mp (List.mem_of_find?_eq_some hfind)
      simp only [beq_iff_eq] at hk
      simp only [List.mem_range] at hmem
      cases Nat.eq_zero_or_pos i with
      | inl h0 => subst h0; simpa using hk
      | inr hpos =>
        exfalso
        have : b.length + 1 ≤ i * (b.length + 1) := Nat.le_mul_of_pos_left _ hpos
        omega
    | none =>
      rw [h1]
      cases hfind2 : (List.range (a.length + 1)).reverse.find?
          (fun k => k * (b.length + 1) == i * (b.length + 1)) with
      | some k =>
        have hk := List.find?_some hfind2
        simp only [beq_iff_eq] at hk
        exact Nat.eq_of_mul_eq_mul_right (by omega) hk
      | none =>
        exfalso
        rw [List.find?_eq_none] at hfind2
        exact hfind2 i (by simp [List.mem_reverse, List.mem_range]; omega) (by simp)

theorem flat_inj {W i1 j1 i2 j2 : Nat} (hW1 : j1 < W) (hW2 : j2 < W)
    (he : i1 * W + j1 = i2 * W + j2) : i1 = i2 ∧ j1 = j2 := by
  have h1 : i1 = i2 := by
    by_contra hne
    rcases Nat.lt_or_ge i1 i2 with hlt | hge
    · have h2 : (i1 + 1) * W ≤ i2 * W := Nat.mul_le_mul_right W hlt
      rw [Nat.succ_mul] at h2
      omega
    · have hgt : i2 + 1 ≤ i1 := by omega
      have h2 : (i2 + 1) * W ≤ i1 * W := Nat.mul_le_mul_right W hgt
      rw [Nat.succ_mul] at h2
      omega
  subst h1
  exact ⟨rfl, by omega⟩

@[simp] theorem dDL_zero_left (a b : List Nat) (j : Nat) : dDL a b 0 j = j := by
  rw [dDL]

@[simp] theorem dDL_succ_zero (a b : List Nat) (i : Nat) : dDL a b (i + 1) 0 = i + 1 := by
  rw [dDL]

theorem dDL_zero_zero (a b : List Nat) (i : Nat) : dDL a b i 0 = i := by
  cases i with
  | zero => simp
  | succ k => simp

/-- Partial-table correctness for the edit_dist fill: the boundary row
and column hold their dDL values, and every interior cell in a row
before `r`, or in row `r` up to column `c`, holds its dDL value. -/
def TblOK (a b : List Nat) (t : Nat → Nat) (r c : Nat) : Prop :=
  (∀ i, i ≤ a.length → t (i * (b.length + 1)) = dDL a b i 0) ∧
  (∀ j, j ≤ b.length → t j = dDL a b 0 j) ∧
  (∀ i j, 1 ≤ i → 1 ≤ j → j ≤ b.length → i ≤ a.length →
    (i < r ∨ (i = r ∧ j ≤ c)) → t (i * (b.length + 1) + j) = dDL a b i j)

theorem edCell_correct (a b : List Nat) (t : Nat → Nat) (r c : Nat)
    (hr : 1 ≤ r) (hrm : r ≤ a.length) (hc : 1 ≤ c) (hcn : c ≤ b.length)
    (hOK : TblOK a b t r (c - 1)) :
    edCell a b t r c = dDL a b r c := by
  obtain ⟨r', rfl⟩ : ∃ r2, r = r2 + 1 := ⟨r - 1, by omega⟩
  obtain ⟨c', rfl⟩ : ∃ c2, c = c2 + 1 := ⟨c - 1, by omega⟩
  obtain ⟨hB1, hB2, hB3⟩ := hOK
  have hA1 : t (r' * (b.length + 1) + (c' + 1)) = dDL a b r' (c' + 1) := by
    rcases Nat.eq_zero_or_pos r' with h0 | hpos
    · subst h0
      simpa using hB2 (c' + 1) hcn
    · exact hB3 r' (c' + 1) hpos (by omega) hcn (by omega) (Or.inl (by omega))
  have hA2 : t ((r' + 1) * (b.length + 1) + c') = dDL a b (r' + 1) c' := by
    rcases Nat.eq_zero_or_pos c' with h0 | hpos
    · subst h0
      rw [dDL_zero_zero]
      simpa using hB1 (r' + 1) hrm
    · exact hB3 (r' + 1) c' (by omega) hpos (by omega) hrm (Or.inr ⟨rfl, by omega⟩)
  have hA3 : t (r' * (b.length + 1) + c') = dDL a b r' c' := by
    rcases Nat.eq_zero_or_pos r' with h0 | hpos
    · subst h0
      simpa using hB2 c' (by omega)
    · rcases Nat.eq_zero_or_pos c' with hc0 | hcpos
      · subst hc0
        simpa using hB1 r' (by omega)
      · exact hB3 r' c' hpos hcpos (by omega) (by omega) (Or.inl (by omega))
  have hA4 : 1 ≤ r' → 1 ≤ c' →
      t ((r' - 1) * (b.length + 1) + (c' - 1)) = dDL a b (r' - 1) (c' - 1) := by
    intro hr1 hc1
    rcases Nat.eq_zero_or_pos (r' - 1) with h0 | hpos
    · rw [h0]
      simpa using hB2 (c' - 1) (by omega)
    · rcases Nat.eq_zero_or_pos (c' - 1) with hc0 | hcpos
      · rw [hc0]
        simpa using hB1 (r' - 1) (by omega)
      · exact hB3 (r' - 1) (c' - 1) hpos hcpos (by omega) (by omega) (Or.inl (by omega))
  show edCell a b t (r' + 1) (c' + 1) = dDL a b (r' + 1) (c' + 1)
  rw [dDL]
  simp only [edCell, Nat.add_sub_cancel]
  have e2 : r' + 1 - 2 = r' - 1 := by omega
  have e3 : c' + 1 - 2 = c' - 1 := by omega
  rw [e2, e3]
  rw [hA1, hA2, hA3]
  by_cases hT : 1 ≤ r' ∧ 1 ≤ c' ∧ a.getD r' 0 = b.getD (c' - 1) 0 ∧
      a.getD (r' - 1) 0 = b.getD c' 0
  · rw [if_pos (show r' + 1 > 1 ∧ c' + 1 > 1 ∧ a.getD r' 0 = b.getD (c' - 1) 0 ∧
        a.getD (r' - 1) 0 = b.getD c' 0 from ⟨by omega, by omega, hT.2.2.1, hT.2.2.2⟩)]
    rw [if_pos (show r' ≥ 1 ∧ c' ≥ 1 ∧ a.getD r' 0 = b.getD (c' - 1) 0 ∧
        a.getD (r' - 1) 0 = b.getD c' 0 from ⟨hT.1, hT.2.1, hT.2.2.1, hT.2.2.2⟩)]
    rw [hA4 hT.1 hT.2.1]
    omega
  · rw [if_neg (show ¬(r' + 1 > 1 ∧ c' + 1 > 1 ∧ a.getD r' 0 = b.getD (c' - 1) 0 ∧
        a.getD (r' - 1) 0 = b.getD c' 0) from
        fun hcc => hT ⟨by omega, by omega, hcc.2.2.1, hcc.2.2.2⟩)]
    rw [if_neg (show ¬(r' ≥ 1 ∧ c' ≥ 1 ∧ a.getD r' 0 = b.getD (c' - 1) 0 ∧
        a.getD (r' - 1) 0 = b.getD c' 0) from hT)]

theorem edStep_preserves (a b : List Nat) (t : Nat → Nat) (r c : Nat)
    (hr : 1 ≤ r) (hrm : r ≤ a.length) (hcn : c < b.length)
    (hOK : TblOK a b t r c) :
    TblOK a b (edStep a b t r (c + 1)) r (c + 1) := by
  have hval : edCell a b t r (c + 1) = dDL a b r (c + 1) :=
    edCell_correct a b t r (c + 1) hr hrm (by omega) (by omega)
      (by simpa [Nat.add_sub_cancel] using hOK)
  obtain ⟨hB1, hB2, hB3⟩ := hOK
  refine ⟨?_, ?_, ?_⟩
  · intro i hi
    unfold edStep
    rw [Function.update_noteq]
    · exact hB1 i hi
    · intro hcontra
      have h2 := @flat_inj (b.length + 1) _ _ _ _
        (show (0 : Nat) < b.length + 1 by omega)
        (show c + 1 < b.length + 1 by omega)
        (show i * (b.length + 1) + 0 = r * (b.length + 1) + (c + 1) by omega)
      omega
  · intro j hj
    unfold edStep
    rw [Function.update_noteq]
    · exact hB2 j hj
    · intro hcontra
      have h2 := @flat_inj (b.length + 1) _ _ _ _ (by omega) (by omega)
        (show 0 * (b.length + 1) + j = r * (b.length + 1) + (c + 1) by simpa using hcontra)
      omega
  · intro i j hi hj hjn him hreg
    unfold edStep
    by_cases hij : i = r ∧ j = c + 1
    · obtain ⟨rfl, rfl⟩ := hij
      rw [Function.update_same]
      exact hval
    · rw [Function.update_noteq]
      · refine hB3 i j hi hj hjn him ?_
        rcases hreg with h | ⟨heq, hle⟩
        · exact Or.inl h
        · rcases Nat.lt_or_ge j (c + 1) with hlt | hge
          · exact Or.inr ⟨heq, by omega⟩
          · exfalso
            exact hij ⟨heq, by omega⟩
      · intro hcontra
        have h2 := @flat_inj (b.length + 1) _ _ _ _ (by omega) (by omega) hcontra
        exact hij ⟨h2.1, h2.2⟩

theorem edRow_fold (a b : List Nat) (r : Nat) (hr : 1 ≤ r) (hrm : r ≤ a.length) :
    ∀ (k : Nat), k ≤ b.length → ∀ (t : Nat → Nat), TblOK a b t r 0 →
      TblOK a b ((List.range k).foldl (fun t j0 => edStep a b t r (j0 + 1)) t) r k := by
  intro k
  induction k with
  | zero => intro hk t hOK; simpa using hOK
  | succ k ih =>
    intro hk t hOK
    rw [List.range_succ, List.foldl_append]
    simp only [List.foldl_cons, List.foldl_nil]
    exact edStep_preserves a b _ r k hr hrm (by omega) (ih (by omega) t hOK)

theorem TblOK_next_row (a b : List Nat) (t : Nat → Nat) (r : Nat)
    (hOK : TblOK a b t r b.length) : TblOK a b t (r + 1) 0 := by
  obtain ⟨hB1, hB2, hB3⟩ := hOK
  refine ⟨hB1, hB2, ?_⟩
  intro i j hi hj hjn him hreg
  refine hB3 i j hi hj hjn him ?_
  rcases hreg with h | ⟨heq, hle⟩
  · rcases Nat.lt_or_ge i r with hlt | hge
    · exact Or.inl hlt
    · exact Or.inr ⟨by omega, by omega⟩
  · omega

theorem edOuter_fold (a b : List Nat) :
    ∀ (k : Nat), k ≤ a.length → ∀ (t : Nat → Nat), TblOK a b t 0 0 →
      TblOK a b ((List.range k).foldl (fun t i0 =>
        (List.range b.length).foldl (fun t j0 => edStep a b t (i0 + 1) (j0 + 1)) t) t) k b.length := by
  intro k
  induction k with
  | zero =>
    intro hk t hOK
    obtain ⟨hB1, hB2, hB3⟩ := hOK
    refine ⟨hB1, hB2, ?_⟩
    intro i j hi hj hjn him hreg
    exact absurd hreg (by omega)
  | succ k ih =>
    intro hk t hOK
    rw [List.range_succ, List.foldl_append]
    simp only [List.foldl_cons, List.foldl_nil]
    have hprev := ih (by omega) t hOK
    have hshift : TblOK a b ((List.range k).foldl (fun t i0 =>
        (List.range b.length).foldl (fun t j0 => edStep a b t (i0 + 1) (j0 + 1)) t) t)
        (k + 1) 0 := TblOK_next_row a b _ k hprev
    exact edRow_fold a b (k + 1) (by omega) (by omega) b.length (le_refl _) _ hshift

/-- edit_dist implements exactly the Damerau-Levenshtein
dynamic-programming recurrence of the specification: for all scalar
lists a (m scalars) and b (n scalars), the value the flat-table fill
loop computes equals d(m,n) of the recurrence with d(i,0)=i, d(0,j)=j,
the insert/delete/substitute minimum, and the transposition term
d(i-2,j-2)+cost available when the last two scalars are swapped;
distances are counted in Unicode scalars and a transposition costs the
same single error as a substitution. -/
theorem edit_dist_eq_dDL_refine (a b : List Nat) :
    edit_dist a b = dDL a b a.length b.length := by
  have hinit := init_table_boundary a b
  have hOK0 : TblOK a b ((List.range (b.length + 1)).foldl (fun t i => Function.update t i i)
      ((List.range (a.length + 1)).foldl
        (fun t i => Function.update t (i * (b.length + 1)) i) (fun _ => 0))) 0 0 := by
    refine ⟨?_, ?_, ?_⟩
    · intro i hi
      rw [hinit.2 i hi, dDL_zero_zero]
    · intro j hj
      rw [hinit.1 j hj, dDL_zero_left]
    · intro i j hi hj hjn him hreg
      exact absurd hreg (by omega)
  have hfinal := edOuter_fold a b a.length (le_refl _) _ hOK0
  show ((List.range a.length).foldl (fun t i0 =>
      (List.range b.length).foldl (fun t j0 => edStep a b t (i0 + 1) (j0 + 1)) t)
      ((List.range (b.length + 1)).foldl (fun t i => Function.update t i i)
        ((List.range (a.length + 1)).foldl
          (fun t i => Function.update t (i * (b.length + 1)) i) (fun _ => 0))))
      (a.length * (b.length + 1) + b.length) = dDL a b a.length b.length
  obtain ⟨hB1, hB2, hB3⟩ := hfinal
  rcases Nat.eq_zero_or_pos a.length with hm0 | hmpos
  · have hidx : a.length * (b.length + 1) + b.length = b.length := by
      rw [hm0]
      simp
    rw [hidx]
    have hrhs : dDL a b a.length b.length = dDL a b 0 b.length := by rw [hm0]
    rw [hrhs, dDL_zero_left]
    have h2 := hB2 b.length (le_refl _)
    rw [dDL_zero_left] at h2
    exact h2
  · rcases Nat.eq_zero_or_pos b.length with hn0 | hnpos
    · have hidx : a.length * (b.length + 1) + b.length = a.length * (b.length + 1) := by
        omega
      rw [hidx]
      have hrhs : dDL a b a.length b.length = dDL a b a.length 0 := by rw [hn0]
      rw [hrhs]
      exact hB1 a.length (le_refl _)
    · exact hB3 a.length b.length hmpos hnpos (le_refl _) (le_refl _)
        (Or.inr ⟨rfl, le_refl _⟩)

/-- C3: edit_dist implements exactly the Damerau-Levenshtein
dynamic-programming recurrence of the specification: the value computed
by the flat-table fill loop on scalar lists a and b equals d(|a|,|b|) of
the recurrence with d(i,0)=i, d(0,j)=j, the insert/delete/substitute
minimum, and the transposition term d(i-2,j-2)+cost available when the
last two scalars are swapped. -/
theorem edit_dist_eq_dDL (a b : List Nat) :
    edit_dist a b = dDL a b a.length b.length :=
  edit_dist_eq_dDL_refine a b

theorem find_matches_prune {σ : Type} (m : UniModel) (mode : MatcherMode)
    (cb : List Nat → Nat → Nat × σ → Nat × σ) (word : List Nat)
    (t : Trie) (pos : Nat) (path : List Nat) (ne : Nat) (S : Nat × σ)
    (h : ne > S.1) :
    enchant_trie_find_matches m mode cb word t pos path ne S = S := by
  cases t with
  | null => rw [enchant_trie_find_matches]
  | eos => rw [enchant_trie_find_matches, if_pos h]
  | node v st =>
    cases v with
    | some vv => rw [enchant_trie_find_matches, if_pos h]
    | none => rw [enchant_trie_find_matches, if_pos h]

theorem find_matches_cb_prune {σ : Type} (m : UniModel) (mode : MatcherMode)
    (cb : List Nat → Nat → Nat × σ → Nat × σ) (word : List Nat)
    (k : List Nat) (sub : Trie) (pos : Nat) (path : List Nat) (ne : Nat) (S : Nat × σ)
    (h : ne > S.1) :
    enchant_trie_find_matches_cb m mode cb word k sub pos path ne S = S := by
  rw [enchant_trie_find_matches_cb]
  by_cases hk : k = headKey (word.drop pos)
  · rw [if_pos hk]
  · rw [if_neg hk]
    have ha : ∀ (t2 : Trie) (pos2 : Nat) (path2 : List Nat),
        enchant_trie_find_matches m mode cb word t2 pos2 path2 ne S = S :=
      fun t2 pos2 path2 => find_matches_prune m mode cb word t2 pos2 path2 ne S h
    simp only [ha]
    split
    · split <;> rfl
    · rfl

theorem find_matches_list_prune {σ : Type} (m : UniModel) (mode : MatcherMode)
    (cb : List Nat → Nat → Nat × σ → Nat × σ) (word : List Nat)
    (ts2 : List (List Nat × Trie)) (pos : Nat) (path : List Nat) (ne : Nat) (S : Nat × σ)
    (h : ne > S.1) :
    enchant_trie_find_matches_list m mode cb word ts2 pos path ne S = S := by
  induction ts2 with
  | nil => rw [enchant_trie_find_matches_list]
  | cons p rest ih =>
    obtain ⟨k, sub⟩ := p
    rw [enchant_trie_find_matches_list]
    rw [find_matches_cb_prune m mode cb word k sub pos path ne S h]
    exact ih

theorem remBytes_eq_zero (w : List Nat) (pos : Nat) :
    remBytes w pos = 0 ↔ w.drop pos = [] := by
  unfold remBytes
  cases hd : w.drop pos with
  | nil => simp
  | cons c rest =>
    simp only [List.map_cons, List.sum_cons]
    constructor
    · intro hsum
      have := utf8Len_pos c
      omega
    · intro hcc
      exact List.noConfusion hcc

theorem take_succ_eq_iff (a b : List Nat) (i j : Nat) (hi : i < a.length) (hj : j < b.length) :
    a.take (i + 1) = b.take (j + 1) ↔ (a.take i = b.take j ∧ a.getD i 0 = b.getD j 0) := by
  have h1 : a.take (i + 1) = a.take i ++ [a.getD i 0] := by
    rw [List.take_succ]
    congr 1
    rw [List.getD_eq_getElem?_getD]
    cases hg : a[i]? with
    | none =>
      exfalso
      rw [List.getElem?_eq_none_iff] at hg
      omega
    | some x => simp [hg]
  have h2 : b.take (j + 1) = b.take j ++ [b.getD j 0] := by
    rw [List.take_succ]
    congr 1
    rw [List.getD_eq_getElem?_getD]
    cases hg : b[j]? with
    | none =>
      exfalso
      rw [List.getElem?_eq_none_iff] at hg
      omega
    | some x => simp [hg]
  rw [h1, h2]
  constructor
  · intro he
    have := List.append_inj' he (by simp)
    simpa using this
  · intro ⟨ha, hb⟩
    rw [ha, hb]

theorem dDL_eq_zero_iff (a b : List Nat) :
    ∀ (N i j : Nat), i + j ≤ N → i ≤ a.length → j ≤ b.length →
      (dDL a b i j = 0 ↔ a.take i = b.take j) := by
  intro N
  induction N with
  | zero =>
    intro i j hN hi hj
    have hi0 : i = 0 := by omega
    have hj0 : j = 0 := by omega
    subst hi0; subst hj0
    simp
  | succ N ih =>
    intro i j hN hi hj
    match i, j with
    | 0, j =>
      rw [dDL_zero_left]
      simp only [List.take_zero]
      constructor
      · intro h0
        subst h0
        simp
      · intro he
        rcases (List.take_eq_nil_iff).mp he.symm with h | h
        · exact h
        · subst h
          simp at hj
          omega
    | i + 1, 0 =>
      rw [dDL_succ_zero]
      constructor
      · intro h0
        exact absurd h0 (by omega)
      · intro he
        exfalso
        rcases (List.take_eq_nil_iff).mp he with h | h
        · omega
        · subst h
          simp at hi
    | i + 1, j + 1 =>
      rw [dDL]
      have hiff := take_succ_eq_iff a b i j (by omega) (by omega)
      have hd3 := ih i j (by omega) (by omega) (by omega)
      constructor
      · intro h0
        by_cases hT : i ≥ 1 ∧ j ≥ 1 ∧ a.getD i 0 = b.getD (j - 1) 0 ∧
            a.getD (i - 1) 0 = b.getD j 0
        · rw [if_pos hT] at h0
          rcases Nat.min_eq_zero_iff.mp h0 with hbase | htr
          · rcases Nat.min_eq_zero_iff.mp hbase with hmin | hsub
            · rcases Nat.min_eq_zero_iff.mp hmin with hdel | hins
              · exact absurd hdel (by omega)
              · exact absurd hins (by omega)
            · have hcost : (if a.getD i 0 ≠ b.getD j 0 then 1 else 0) = 0 ∧
                  dDL a b i j = 0 := by omega
              rw [hiff]
              refine ⟨hd3.mp hcost.2, ?_⟩
              by_contra hne
              rw [if_pos hne] at hcost
              omega
          · have hcost : (if a.getD i 0 ≠ b.getD j 0 then 1 else 0) = 0 ∧
                dDL a b (i - 1) (j - 1) = 0 := by omega
            have hdd := (ih (i - 1) (j - 1) (by omega) (by omega) (by omega)).mp hcost.2
            have hab : a.getD i 0 = b.getD j 0 := by
              by_contra hne
              rw [if_pos hne] at hcost
              omega
            rw [hiff]
            refine ⟨?_, hab⟩
            have hiff2 := take_succ_eq_iff a b (i - 1) (j - 1) (by omega) (by omega)
            have e1 : i - 1 + 1 = i := by omega
            have e2 : j - 1 + 1 = j := by omega
            rw [e1, e2] at hiff2
            rw [hiff2]
            refine ⟨hdd, ?_⟩
            rw [hT.2.2.2]
            rw [← hT.2.2.1]
            exact hab.symm
        · rw [if_neg hT] at h0
          rcases Nat.min_eq_zero_iff.mp h0 with hmin | hsub
          · rcases Nat.min_eq_zero_iff.mp hmin with hdel | hins
            · exact absurd hdel (by omega)
            · exact absurd hins (by omega)
          · have hcost : (if a.getD i 0 ≠ b.getD j 0 then 1 else 0) = 0 ∧
                dDL a b i j = 0 := by omega
            rw [hiff]
            refine ⟨hd3.mp hcost.2, ?_⟩
            by_contra hne
            rw [if_pos hne] at hcost
            omega
      · intro he
        rw [hiff] at he
        have hsub : dDL a b i j + (if a.getD i 0 ≠ b.getD j 0 then 1 else 0) = 0 := by
          have h1 : dDL a b i j = 0 := hd3.mpr he.1
          have h2 : (if a.getD i 0 ≠ b.getD j 0 then 1 else 0) = 0 := by
            rw [if_neg (by simpa using he.2)]
          omega
        by_cases hT : i ≥ 1 ∧ j ≥ 1 ∧ a.getD i 0 = b.getD (j - 1) 0 ∧
            a.getD (i - 1) 0 = b.getD j 0
        · rw [if_pos hT]
          omega
        · rw [if_neg hT]
          omega

/-- edit_dist vanishes exactly on equal scalar lists. -/
theorem edit_dist_eq_zero_iff (a b : List Nat) : edit_dist a b = 0 ↔ a = b := by
  rw [edit_dist_eq_dDL]
  rw [dDL_eq_zero_iff a b (a.length + b.length) a.length b.length (le_refl _)
    (le_refl _) (le_refl _)]
  rw [List.take_length, List.take_length]
theorem get_subtrie_cs_snd (m : UniModel) (t : Trie) (k : List Nat) :
    (enchant_trie_get_subtrie m MatcherMode.case_sensitive t k).2 = k := by
  cases t with
  | null => rfl
  | eos => rfl
  | node v st =>
    cases st with
    | none => rfl
    | some ts =>
      simp only [enchant_trie_get_subtrie]
      cases alookup ts k <;> simp

theorem get_subtrie_cs_fst (m : UniModel) (v : Option (List Nat))
    (ts : List (List Nat × Trie)) (k : List Nat) :
    (enchant_trie_get_subtrie m MatcherMode.case_sensitive (Trie.node v (some ts)) k).1
      = alookup ts k := by
  simp only [enchant_trie_get_subtrie]
  cases alookup ts k <;> simp

theorem find_matches_max0 (m : UniModel) (word : List Nat) :
    ∀ (N : Nat) (t : Trie) (pos : Nat) (path : List Nat) (cnt : Nat), sizeOf t ≤ N →
      enchant_trie_find_matches m MatcherMode.case_sensitive enchant_pwl_check_cb word
        t pos path 0 (0, cnt)
        = (0, cnt + (if trieContains t (word.drop pos) then 1 else 0)) := by
  intro N
  induction N with
  | zero =>
    intro t pos path cnt h
    exact absurd h (by cases t <;> simp)
  | succ N ih =>
    intro t pos path cnt h
    cases t with
    | null => simp [enchant_trie_find_matches]
    | eos =>
      rw [enchant_trie_find_matches, if_neg (Nat.lt_irrefl 0)]
      simp only []
      by_cases hr : remBytes word pos = 0
      · have hd : word.drop pos = [] := (remBytes_eq_zero word pos).mp hr
        simp [hr, hd, enchant_pwl_check_cb]
      · have hd : ¬ word.drop pos = [] := fun hh => hr ((remBytes_eq_zero word pos).mpr hh)
        rw [if_neg (by omega)]
        simp [List.isEmpty_iff, hd]
    | node v st =>
      cases v with
      | some vv =>
        rw [enchant_trie_find_matches, if_neg (Nat.lt_irrefl 0)]
        simp only []
        have hv2 : (if MatcherMode.case_sensitive = MatcherMode.case_insensitive
            then m.strdown vv else vv) = vv := rfl
        rw [hv2]
        by_cases he : word.drop pos = vv
        · have h0 : edit_dist vv (word.drop pos) = 0 :=
            (edit_dist_eq_zero_iff vv (word.drop pos)).mpr he.symm
          rw [he] at h0
          simp [h0, he, enchant_pwl_check_cb]
        · have h0 : ¬ edit_dist vv (word.drop pos) = 0 :=
            fun hh => he (((edit_dist_eq_zero_iff _ _).mp hh).symm)
          rw [if_neg (by omega)]
          simp [he]
      | none =>
        rw [enchant_trie_find_matches, if_neg (Nat.lt_irrefl 0)]
        simp only []
        split
        next hlt =>
          split
          next sub heq =>
            cases st with
            | none => exact absurd heq (by simp [enchant_trie_get_subtrie])
            | some ts =>
              have hl : alookup ts (headKey (word.drop pos)) = some sub := by
                rw [get_subtrie_cs_fst] at heq
                exact heq
              have hsz : sizeOf sub ≤ N := by
                have h1 := sizeOf_lt_of_alookup hl
                simp only [Trie.node.sizeOf_spec, Option.some.sizeOf_spec,
                  Option.none.sizeOf_spec] at h
                omega
              rw [get_subtrie_cs_snd,
                ih sub (pos + 1) (path ++ headKey (word.drop pos)) cnt hsz]
              rw [find_matches_prune m MatcherMode.case_sensitive enchant_pwl_check_cb word
                (Trie.node none (some ts)) (pos + 1) path (0 + 1)
                (0, cnt + (if trieContains sub (word.drop (pos + 1)) then 1 else 0))
                (by simp)]
              rw [find_matches_list_prune m MatcherMode.case_sensitive enchant_pwl_check_cb word
                ((some ts).getD []) pos path (0 + 1)
                (0, cnt + (if trieContains sub (word.drop (pos + 1)) then 1 else 0))
                (by simp)]
              rw [trieContains_branch, hl, List.tail_drop]
          next heq =>
            rw [find_matches_prune m MatcherMode.case_sensitive enchant_pwl_check_cb word
              (Trie.node none st) (pos + 1) path (0 + 1) (0, cnt) (by simp)]
            rw [find_matches_list_prune m MatcherMode.case_sensitive enchant_pwl_check_cb word
              (st.getD []) pos path (0 + 1) (0, cnt) (by simp)]
            cases st with
            | none => simp
            | some ts =>
              have hl : alookup ts (headKey (word.drop pos)) = none := by
                rw [get_subtrie_cs_fst] at heq
                exact heq
              rw [trieContains_branch, hl]
              simp
        next hlt =>
          split
          next sub heq =>
            cases st with
            | none => exact absurd heq (by simp [enchant_trie_get_subtrie])
            | some ts =>
              have hl : alookup ts (headKey (word.drop pos)) = some sub := by
                rw [get_subtrie_cs_fst] at heq
                exact heq
              have hsz : sizeOf sub ≤ N := by
                have h1 := sizeOf_lt_of_alookup hl
                simp only [Trie.node.sizeOf_spec, Option.some.sizeOf_spec,
                  Option.none.sizeOf_spec] at h
                omega
              rw [get_subtrie_cs_snd,
                ih sub (pos + 1) (path ++ headKey (word.drop pos)) cnt hsz]
              rw [find_matches_list_prune m MatcherMode.case_sensitive enchant_pwl_check_cb word
                ((some ts).getD []) pos path (0 + 1)
                (0, cnt + (if trieContains sub (word.drop (pos + 1)) then 1 else 0))
                (by simp)]
              rw [trieContains_branch, hl, List.tail_drop]
          next heq =>
            rw [find_matches_list_prune m MatcherMode.case_sensitive enchant_pwl_check_cb word
              (st.getD []) pos path (0 + 1) (0, cnt) (by simp)]
            cases st with
            | none => simp
            | some ts =>
              have hl : alookup ts (headKey (word.drop pos)) = none := by
                rw [get_subtrie_cs_fst] at heq
                exact heq
              rw [trieContains_branch, hl]
              simp

theorem enchant_pwl_contains_iff (m : UniModel) (pwl : EnchantPWL) (w : List Nat) :
    enchant_pwl_contains m pwl w = trieContains pwl.trie (m.nfd w) := by
  unfold enchant_pwl_contains
  rw [find_matches_max0 m (m.nfd w) (sizeOf pwl.trie) pwl.trie 0 [] 0 (le_refl _)]
  rw [List.drop_zero]
  cases trieContains pwl.trie (m.nfd w) <;> rfl

/-- The found-condition of check as the specification states it, with
the title-case and all-caps conditions read independently: the trie
contains the NFD-normalised word, or the word is title-case and the
trie contains the NFD form of its lowercased form, or the word is
all-caps and the trie contains the NFD form of its lowercased or of its
title-cased form. -/
def pwl_check_claimed_found (m : UniModel) (pwl : EnchantPWL) (w : List Nat) : Prop :=
  trieContains pwl.trie (m.nfd w) = true
  ∨ (enchant_is_title_case m w = true
      ∧ trieContains pwl.trie (m.nfd (m.strdown w)) = true)
  ∨ (enchant_is_all_caps m w = true
      ∧ (trieContains pwl.trie (m.nfd (m.strdown w)) = true
         ∨ trieContains pwl.trie (m.nfd (enchant_utf8_strtitle m w)) = true))

/-- ASCII lowercase mapping extended with the one cased letter-number
pair U+2160 ROMAN NUMERAL ONE into U+2170 SMALL ROMAN NUMERAL ONE (the
glib case table maps them; their category Nl is neither an uppercase,
lowercase nor titlecase letter). -/
def romanDown (c : Nat) : Nat :=
  if 65 ≤ c ∧ c ≤ 90 then c + 32 else if c = 8544 then 8560 else c

/-- ASCII uppercase mapping extended with U+2170 into U+2160. -/
def romanUp (c : Nat) : Nat :=
  if 97 ≤ c ∧ c ≤ 122 then c - 32 else if c = 8560 then 8544 else c

/-- The fragment of the glib Unicode tables covering ASCII and the
cased letter-number pair U+2160/U+2170: both scalars are category Nl
(`other` here), so the case predicates ignore them, yet the case
mappings change them. -/
def romanModel : UniModel where
  nfd := fun w => w
  strdown := fun w => w.map romanDown
  strup := fun w => w.map romanUp
  totitle := romanUp
  cat := fun c =>
    if 65 ≤ c ∧ c ≤ 90 then CharCat.upper
    else if 97 ≤ c ∧ c ≤ 122 then CharCat.lower
    else CharCat.other

/-- C1 counterexample: the word "AⅠ" ([65, 8544]) is simultaneously
title-case and all-caps (U+2160 is ignored by both predicates), so the
short-circuit `enchant_is_title_case(..) || (isAllCaps = ..)` at line
537 of pwl.c leaves isAllCaps at 0 and the title-cased retry is
skipped.  With the PWL holding exactly the title-cased form "Aⅰ"
([65, 8560]), enchant_pwl_check returns 1 (not found), while the
claimed found-condition (which tries the title-cased form of every
all-caps word) holds. -/
theorem enchant_pwl_check_title_allcaps_overlap :
    enchant_is_title_case romanModel [65, 8544] = true
    ∧ enchant_is_all_caps romanModel [65, 8544] = true
    ∧ enchant_pwl_check romanModel
        ⟨Trie.node (some [65, 8560]) none, [([65, 8560], [65, 8560])]⟩ [65, 8544] = 1
    ∧ pwl_check_claimed_found romanModel
        ⟨Trie.node (some [65, 8560]) none, [([65, 8560], [65, 8560])]⟩ [65, 8544] := by
  have hcw : enchant_pwl_contains romanModel
      ⟨Trie.node (some [65, 8560]) none, [([65, 8560], [65, 8560])]⟩ [65, 8544] = false := by
    rw [enchant_pwl_contains_iff]
    simp [romanModel]
  have hcd : enchant_pwl_contains romanModel
      ⟨Trie.node (some [65, 8560]) none, [([65, 8560], [65, 8560])]⟩
      (romanModel.strdown [65, 8544]) = false := by
    rw [enchant_pwl_contains_iff]
    simp [romanModel, romanDown]
  have hT : enchant_is_title_case romanModel [65, 8544] = true := by decide
  have hA : enchant_is_all_caps romanModel [65, 8544] = true := by decide
  have hst : trieContains (Trie.node (some [65, 8560]) none)
      (romanModel.nfd (enchant_utf8_strtitle romanModel [65, 8544])) = true := by
    simp [romanModel, romanUp, romanDown, enchant_utf8_strtitle]
  refine ⟨hT, hA, ?_, Or.inr (Or.inr ⟨hA, Or.inr hst⟩)⟩
  rw [enchant_pwl_check, hcw, hT, hcd]
  simp

/-- C1 amended: enchant_pwl_check returns only 0 or 1, and returns 0
exactly when the trie contains the NFD-normalised word, or the word is
title-case and the trie contains the NFD form of its lowercased form,
or the word is NOT title-case but is all-caps and the trie contains the
NFD form of its lowercased or of its title-cased form.  The short
circuit at line 537 of pwl.c makes the all-caps fallback conditional on
the title-case test failing, so for a word that is both title-case and
all-caps the title-cased form is never tried (see the counterexample
above). -/
theorem enchant_pwl_check_spec_shortcircuit (m : UniModel) (pwl : EnchantPWL)
    (w : List Nat) :
    (enchant_pwl_check m pwl w = 0 ∨ enchant_pwl_check m pwl w = 1) ∧
    (enchant_pwl_check m pwl w = 0 ↔
      (trieContains pwl.trie (m.nfd w) = true
       ∨ (enchant_is_title_case m w = true
            ∧ trieContains pwl.trie (m.nfd (m.strdown w)) = true)
       ∨ (enchant_is_title_case m w = false ∧ enchant_is_all_caps m w = true
            ∧ (trieContains pwl.trie (m.nfd (m.strdown w)) = true
               ∨ trieContains pwl.trie (m.nfd (enchant_utf8_strtitle m w)) = true)))) := by
  unfold enchant_pwl_check
  simp only [enchant_pwl_contains_iff]
  by_cases h1 : trieContains pwl.trie (m.nfd w) = true
  · simp [h1]
  · by_cases hT : enchant_is_title_case m w = true
    · by_cases h2 : trieContains pwl.trie (m.nfd (m.strdown w)) = true
      · simp [h1, hT, h2]
      · simp [h1, hT, h2]
    · by_cases hA : enchant_is_all_caps m w = true
      · by_cases h2 : trieContains pwl.trie (m.nfd (m.strdown w)) = true
        · simp [h1, hT, h2, hA]
        · by_cases h3 : trieContains pwl.trie (m.nfd (enchant_utf8_strtitle m w)) = true
          · simp [h1, hT, h2, hA, h3]
          · simp [h1, hT, h2, hA, h3]
      · simp [h1, hT, hA]

/-- The end-of-string step of the matcher as the specification states it:
when the walk reaches the EOS sentinel with query input still unconsumed,
the number of remaining query Unicode SCALARS is added to num_errors as
deletions, and the accumulated path is emitted via the callback iff the
resulting num_errors is at most max_errors. -/
def find_matches_eos_scalars {σ : Type} (cb : List Nat → Nat → Nat × σ → Nat × σ)
    (word : List Nat) (pos : Nat) (path : List Nat) (ne : Nat) (S : Nat × σ) : Nat × σ :=
  if ne > S.1 then S
  else
    let ne2 := ne + (word.drop pos).length
    if ne2 ≤ S.1 then cb path ne2 S else S

/-- C4: the claim is wrong about the code, and the code is wrong: at the
EOS sentinel, enchant_trie_find_matches adds the remaining BYTES of the
query (`strlen(matcher->word) - matcher->word_pos`, pwl.c lines 831-835),
not the remaining Unicode scalars.  On the one-scalar query U+00E9
(2 UTF-8 bytes) with max_errors 1, one scalar remains, so the
specification emits the path (1 deletion ≤ 1), but the code adds 2 and
emits nothing; on the all-ASCII query [97] the two agree. -/
theorem enchant_trie_find_matches_eos_counts_bytes :
    enchant_trie_find_matches asciiModel MatcherMode.case_sensitive enchant_pwl_check_cb
        [233] Trie.eos 0 [] 0 (1, 0) = (1, 0)
    ∧ find_matches_eos_scalars enchant_pwl_check_cb [233] 0 [] 0 (1, 0) = (1, 1)
    ∧ enchant_trie_find_matches asciiModel MatcherMode.case_sensitive enchant_pwl_check_cb
        [233] Trie.eos 0 [] 0 (1, 0)
      ≠ find_matches_eos_scalars enchant_pwl_check_cb [233] 0 [] 0 (1, 0)
    ∧ enchant_trie_find_matches asciiModel MatcherMode.case_sensitive enchant_pwl_check_cb
        [97] Trie.eos 0 [] 0 (1, 0)
      = find_matches_eos_scalars enchant_pwl_check_cb [97] 0 [] 0 (1, 0) := by
  have h1 : enchant_trie_find_matches asciiModel MatcherMode.case_sensitive
      enchant_pwl_check_cb [233] Trie.eos 0 [] 0 (1, 0) = (1, 0) := by
    simp [enchant_trie_find_matches, remBytes, utf8Len]
  have h2 : find_matches_eos_scalars enchant_pwl_check_cb [233] 0 [] 0 (1, 0) = (1, 1) := by
    simp [find_matches_eos_scalars, enchant_pwl_check_cb]
  have h4 : enchant_trie_find_matches asciiModel MatcherMode.case_sensitive
      enchant_pwl_check_cb [97] Trie.eos 0 [] 0 (1, 0) = (1, 1) := by
    simp [enchant_trie_find_matches, remBytes, utf8Len, enchant_pwl_check_cb]
  have h5 : find_matches_eos_scalars enchant_pwl_check_cb [97] 0 [] 0 (1, 0) = (1, 1) := by
    simp [find_matches_eos_scalars, enchant_pwl_check_cb]
  refine ⟨h1, h2, ?_, ?_⟩
  · rw [h1, h2]
    intro hc
    exact absurd (Prod.mk.injEq .. ▸ hc) (by simp)
  · rw [h4, h5]

theorem trie_sizeOf_pos (t : Trie) : 0 < sizeOf t := by
  cases t with
  | null => simp
  | eos => simp
  | node v st => simp only [Trie.node.sizeOf_spec]; omega

theorem tslist_sizeOf_pos (ts : List (List Nat × Trie)) : 0 < sizeOf ts := by
  cases ts with
  | nil => simp
  | cons p rest => simp only [List.cons.sizeOf_spec]; omega

/-- Any property of the threaded matcher state that every callback
invocation preserves (under the emission guard `ne ≤ S.1`) is preserved
by the whole traversal: the matcher only ever changes the state through
the callback. -/
theorem find_matches_preservation {σ : Type} (m : UniModel) (mode : MatcherMode)
    (cb : List Nat → Nat → Nat × σ → Nat × σ) (word : List Nat)
    (P : Nat × σ → Prop)
    (hcb : ∀ mtch ne S, P S → ne ≤ S.1 → P (cb mtch ne S)) :
    ∀ N : Nat,
      (∀ t pos path ne S, sizeOf t + (word.length + 1 - pos) ≤ N → P S →
        P (enchant_trie_find_matches m mode cb word t pos path ne S)) ∧
      (∀ k sub pos path ne S, sizeOf sub + (word.length + 1 - pos) ≤ N → P S →
        P (enchant_trie_find_matches_cb m mode cb word k sub pos path ne S)) ∧
      (∀ ts pos path ne S, sizeOf ts + (word.length + 1 - pos) ≤ N → P S →
        P (enchant_trie_find_matches_list m mode cb word ts pos path ne S)) := by
  intro N
  induction N with
  | zero =>
    refine ⟨fun t pos path ne S hb _ => absurd hb ?_,
            fun k sub pos path ne S hb _ => absurd hb ?_,
            fun ts pos path ne S hb _ => absurd hb ?_⟩
    · have := trie_sizeOf_pos t; omega
    · have := trie_sizeOf_pos sub; omega
    · have := tslist_sizeOf_pos ts; omega
  | succ N ih =>
    obtain ⟨ihF, ihC, ihL⟩ := ih
    have hFM : ∀ t pos path ne S, sizeOf t + (word.length + 1 - pos) ≤ N + 1 → P S →
        P (enchant_trie_find_matches m mode cb word t pos path ne S) := by
      intro t pos path ne S hb hP
      cases t with
      | null => rw [enchant_trie_find_matches]; exact hP
      | eos =>
        by_cases hne : ne > S.1
        · rw [enchant_trie_find_matches, if_pos hne]; exact hP
        · rw [enchant_trie_find_matches, if_neg hne]
          simp only []
          split
          next hle => exact hcb path (ne + remBytes word pos) S hP hle
          · exact hP
      | node v st =>
        cases v with
        | some vv =>
          by_cases hne : ne > S.1
          · rw [enchant_trie_find_matches, if_pos hne]; exact hP
          · rw [enchant_trie_find_matches, if_neg hne]
            simp only []
            split
            all_goals
              split
              next hle => exact hcb _ _ S hP hle
              next => exact hP
        | none =>
          by_cases hne : ne > S.1
          · rw [enchant_trie_find_matches, if_pos hne]; exact hP
          · rw [enchant_trie_find_matches, if_neg hne]
            simp only []
            have hszts : sizeOf (st.getD []) + 2 ≤ sizeOf (Trie.node none st) := by
              cases st with
              | none =>
                simp only [Option.getD_none, Trie.node.sizeOf_spec,
                  Option.none.sizeOf_spec, List.nil.sizeOf_spec]
                omega
              | some ts =>
                simp only [Option.getD_some, Trie.node.sizeOf_spec,
                  Option.some.sizeOf_spec, Option.none.sizeOf_spec]
                omega
            split
            next hlt =>
              split
              next sub heq =>
                have hsub := sizeOf_lt_of_get_subtrie heq
                exact ihL _ pos path (ne + 1) _ (by omega)
                  (ihF (Trie.node none st) (pos + 1) path (ne + 1) _ (by omega)
                    (ihF sub (pos + 1) _ ne S (by omega) hP))
              next heq =>
                exact ihL _ pos path (ne + 1) _ (by omega)
                  (ihF (Trie.node none st) (pos + 1) path (ne + 1) S (by omega) hP)
            next hlt =>
              split
              next sub heq =>
                have hsub := sizeOf_lt_of_get_subtrie heq
                exact ihL _ pos path (ne + 1) _ (by omega)
                  (ihF sub (pos + 1) _ ne S (by omega) hP)
              next heq =>
                exact ihL _ pos path (ne + 1) S (by omega) hP
    have hCB : ∀ k sub pos path ne S, sizeOf sub + (word.length + 1 - pos) ≤ N + 1 → P S →
        P (enchant_trie_find_matches_cb m mode cb word k sub pos path ne S) := by
      intro k sub pos path ne S hb hP
      rw [enchant_trie_find_matches_cb]
      by_cases hk : k = headKey (word.drop pos)
      · rw [if_pos hk]; exact hP
      · rw [if_neg hk]
        simp only []
        have hSb : P (enchant_trie_find_matches m mode cb word sub (pos + 1) (path ++ k) ne
            (enchant_trie_find_matches m mode cb word sub pos (path ++ k) ne S)) :=
          hFM sub (pos + 1) _ ne _ (by omega) (hFM sub pos _ ne S (by omega) hP)
        split
        next sub2 heq2 =>
          have hsub2 := sizeOf_lt_of_get_subtrie heq2
          split
          next hk2 => exact hFM sub2 (pos + 2) _ ne _ (by omega) hSb
          next => exact hSb
        next heq2 => exact hSb
    have hLS : ∀ ts pos path ne S, sizeOf ts + (word.length + 1 - pos) ≤ N + 1 → P S →
        P (enchant_trie_find_matches_list m mode cb word ts pos path ne S) := by
      intro ts pos path ne S hb hP
      cases ts with
      | nil => rw [enchant_trie_find_matches_list]; exact hP
      | cons p rest =>
        obtain ⟨k, sub⟩ := p
        have hsz : sizeOf ((k, sub) :: rest) = 1 + (1 + sizeOf k + sizeOf sub) + sizeOf rest := by
          simp only [List.cons.sizeOf_spec, Prod.mk.sizeOf_spec]
        have hkpos : 0 < sizeOf k := by
          cases k with
          | nil => simp
          | cons a l => simp only [List.cons.sizeOf_spec]; omega
        rw [enchant_trie_find_matches_list]
        exact ihL rest pos path ne _ (by omega)
          (hCB k sub pos path ne S (by omega) hP)
    exact ⟨hFM, hCB, hLS⟩

/-- Landing-position scan of enchant_pwl_suggest_cb: when it returns a
position, that position is within the list, and every entry strictly
before it scores at most the incoming error count and differs from the
match. -/
theorem suggFindLoc_spec (mtch : List Nat) (ne : Nat) :
    ∀ (l : List (List Nat × Nat)) (loc : Nat), suggFindLoc mtch ne l = some loc →
      loc ≤ l.length ∧ ∀ p ∈ l.take loc, p.2 ≤ ne ∧ p.1 ≠ mtch := by
  intro l
  induction l with
  | nil =>
    intro loc h
    rw [suggFindLoc] at h
    injection h with h
    subst h
    simp
  | cons pr rest ih =>
    obtain ⟨s, e⟩ := pr
    intro loc h
    rw [suggFindLoc] at h
    by_cases h1 : e > ne
    · rw [if_pos h1] at h
      injection h with h
      subst h
      simp
    · rw [if_neg h1] at h
      by_cases h2 : s = mtch
      · rw [if_pos h2] at h
        exact absurd h (by simp)
      · rw [if_neg h2] at h
        cases hf : suggFindLoc mtch ne rest with
        | none => rw [hf] at h; exact absurd h (by simp)
        | some loc2 =>
          rw [hf] at h
          simp only [Option.map_some'] at h
          injection h with h
          subst h
          obtain ⟨hlen, hmem⟩ := ih loc2 hf
          refine ⟨by simpa using Nat.succ_le_succ hlen, ?_⟩
          intro p hp
          rw [List.take_succ_cons] at hp
          rcases List.mem_cons.mp hp with hp | hp
          · subst hp
            exact ⟨Nat.le_of_not_lt h1, h2⟩
          · exact hmem p hp

/-- The invariant of the suggestion list of enchant_pwl_suggest: entries
sorted by non-decreasing error count, no duplicated string, and at most
ENCHANT_PWL_MAX_SUGGS entries. -/
def SuggInv (l : List (List Nat × Nat)) : Prop :=
  l.Pairwise (fun p q => p.2 ≤ q.2) ∧ (l.map Prod.fst).Nodup ∧
    l.length ≤ ENCHANT_PWL_MAX_SUGGS

/-- One invocation of enchant_pwl_suggest_cb keeps the suggestion-list
invariant. -/
theorem suggest_cb_keeps_SuggInv (mtch : List Nat) (ne : Nat) (S : Nat × List (List Nat × Nat))
    (hS : SuggInv S.2) : SuggInv (enchant_pwl_suggest_cb mtch ne S).2 := by
  obtain ⟨hPW, hND, hLEN⟩ := hS
  rw [enchant_pwl_suggest_cb]
  cases hf : suggFindLoc mtch ne S.2 with
  | none =>
    simp only [hf]
    exact ⟨hPW, hND, hLEN⟩
  | some loc =>
    simp only [hf]
    by_cases hge : loc ≥ ENCHANT_PWL_MAX_SUGGS
    · rw [if_pos hge]
      exact ⟨hPW, hND, hLEN⟩
    · rw [if_neg hge]
      obtain ⟨hlen, hmem⟩ := suggFindLoc_spec mtch ne S.2 loc hf
      refine ⟨?_, ?_, ?_⟩
      · rw [List.pairwise_append]
        refine ⟨hPW.sublist (List.take_sublist loc S.2), by simp, ?_⟩
        intro p hp q hq
        rw [List.mem_singleton] at hq
        subst hq
        exact (hmem p hp).1
      · rw [List.map_append, List.nodup_append]
        refine ⟨(hND.sublist ((List.take_sublist loc S.2).map Prod.fst)), by simp, ?_⟩
        intro a ha hb
        simp only [List.map_cons, List.map_nil, List.mem_singleton] at hb
        subst hb
        obtain ⟨p, hp, hpa⟩ := List.mem_map.mp ha
        exact (hmem p hp).2 hpa
      · have h1 : (S.2.take loc).length ≤ loc := by
          simp [List.length_take]
        simp only [List.length_append, List.length_singleton]
        omega

/-- C9: the suggestion list maintained by enchant_pwl_suggest_cb keeps
its invariant after every emission — sorted by ascending error count,
a tied new entry placed after the existing ties (the surviving entries
are a prefix of the previous list, all scoring at most the new error
count, with the new entry appended after them), no string twice, and at
most ENCHANT_PWL_MAX_SUGGS = 15 entries — and consequently the list
built by the whole matcher run of enchant_pwl_suggest satisfies the
invariant. -/
theorem enchant_pwl_suggest_list_invariant
    (mtch : List Nat) (ne : Nat) (S : Nat × List (List Nat × Nat)) (hS : SuggInv S.2)
    (m : UniModel) (pwl : EnchantPWL) (w : List Nat) (suggs : Option (List (List Nat))) :
    SuggInv (enchant_pwl_suggest_cb mtch ne S).2
    ∧ ((enchant_pwl_suggest_cb mtch ne S).2 = S.2
       ∨ ∃ l, l <+: S.2 ∧ (enchant_pwl_suggest_cb mtch ne S).2 = l ++ [(mtch, ne)]
           ∧ ∀ p ∈ l, p.2 ≤ ne)
    ∧ SuggInv (enchant_pwl_suggest_core m pwl w suggs).2.2 := by
  refine ⟨suggest_cb_keeps_SuggInv mtch ne S hS, ?_, ?_⟩
  · rw [enchant_pwl_suggest_cb]
    cases hf : suggFindLoc mtch ne S.2 with
    | none =>
      simp only [hf]
      exact Or.inl trivial
    | some loc =>
      simp only [hf]
      by_cases hge : loc ≥ ENCHANT_PWL_MAX_SUGGS
      · rw [if_pos hge]
        exact Or.inl rfl
      · rw [if_neg hge]
        obtain ⟨hlen, hmem⟩ := suggFindLoc_spec mtch ne S.2 loc hf
        exact Or.inr ⟨S.2.take loc, List.take_prefix loc S.2, rfl,
          fun p hp => (hmem p hp).1⟩
  · have hpres := (find_matches_preservation m MatcherMode.case_insensitive
      enchant_pwl_suggest_cb (m.strdown (m.nfd w)) (fun S2 => SuggInv S2.2)
      (fun mtch2 ne2 S2 hP _ => suggest_cb_keeps_SuggInv mtch2 ne2 S2 hP)
      (sizeOf pwl.trie + ((m.strdown (m.nfd w)).length + 1))).1
    simp only [enchant_pwl_suggest_core]
    exact hpres pwl.trie 0 [] 0 _ (by omega) (by simp [SuggInv])

/-- Witness for C9 at a concrete state: the empty suggestion list of a
one-word PWL, receiving the match "a" with zero errors. -/
theorem enchant_pwl_suggest_list_invariant_witness :
    SuggInv (enchant_pwl_suggest_cb [97] 0 (3, [])).2
    ∧ ((enchant_pwl_suggest_cb [97] 0 (3, [])).2 = (3, ([] : List (List Nat × Nat))).2
       ∨ ∃ l, l <+: (3, ([] : List (List Nat × Nat))).2
           ∧ (enchant_pwl_suggest_cb [97] 0 (3, [])).2 = l ++ [([97], 0)]
           ∧ ∀ p ∈ l, p.2 ≤ 0)
    ∧ SuggInv (enchant_pwl_suggest_core asciiModel
        ⟨Trie.node (some [97]) none, [([97], [97])]⟩ [97] none).2.2 :=
  enchant_pwl_suggest_list_invariant [97] 0 (3, []) (by simp [SuggInv])
    asciiModel ⟨Trie.node (some [97]) none, [([97], [97])]⟩ [97] none

/-- Every entry the matcher run of enchant_pwl_suggest collects carries
an error count within the initial budget D: the budget component only
ever shrinks, and entries are only appended under the emission guard. -/
theorem find_matches_errs_bounded (m : UniModel) (word : List Nat) (t : Trie) (D : Nat) :
    ∀ p ∈ (enchant_trie_find_matches m MatcherMode.case_insensitive enchant_pwl_suggest_cb
      word t 0 [] 0 (D, [])).2, p.2 ≤ D := by
  have hcbB : ∀ (mtch : List Nat) (ne : Nat) (S : Nat × List (List Nat × Nat)),
      (S.1 ≤ D ∧ ∀ p ∈ S.2, p.2 ≤ D) → ne ≤ S.1 →
      ((enchant_pwl_suggest_cb mtch ne S).1 ≤ D ∧
        ∀ p ∈ (enchant_pwl_suggest_cb mtch ne S).2, p.2 ≤ D) := by
    intro mtch ne S hP hne
    obtain ⟨h1, h2⟩ := hP
    rw [enchant_pwl_suggest_cb]
    have hmE : (if ne < S.1 then ne else S.1) ≤ D := by
      split
      · omega
      · exact h1
    cases hf : suggFindLoc mtch ne S.2 with
    | none =>
      simp only [hf]
      exact ⟨hmE, h2⟩
    | some loc =>
      simp only [hf]
      by_cases hge : loc ≥ ENCHANT_PWL_MAX_SUGGS
      · rw [if_pos hge]
        exact ⟨hmE, h2⟩
      · rw [if_neg hge]
        refine ⟨hmE, ?_⟩
        intro p hp
        rcases List.mem_append.mp hp with hp | hp
        · exact h2 p (List.take_subset loc S.2 hp)
        · rw [List.mem_singleton] at hp
          subst hp
          omega
  have hpres := (find_matches_preservation m MatcherMode.case_insensitive
    enchant_pwl_suggest_cb word (fun S => S.1 ≤ D ∧ ∀ p ∈ S.2, p.2 ≤ D)
    hcbB (sizeOf t + (word.length + 1))).1 t 0 [] 0 (D, [])
    (by omega) ⟨le_refl D, by simp⟩
  exact hpres.2

/-- C2 amended: the matcher budget max_dist of enchant_pwl_suggest is at
most ENCHANT_PWL_MAX_ERRORS = 3, and every collected suggestion entry
carries an error count of at most max_dist.  The error count is computed
against the lowercased NFD form of the query in case-insensitive mode,
so the bound does NOT transfer to the Damerau-Levenshtein distance
between the NFD query and the re-cased strings the call returns (see the
counterexample). -/
theorem enchant_pwl_suggest_errs_bounded (m : UniModel) (pwl : EnchantPWL) (w : List Nat)
    (suggs : Option (List (List Nat))) :
    (enchant_pwl_suggest_core m pwl w suggs).1 ≤ ENCHANT_PWL_MAX_ERRORS
    ∧ ∀ p ∈ (enchant_pwl_suggest_core m pwl w suggs).2.2,
        p.2 ≤ (enchant_pwl_suggest_core m pwl w suggs).1 := by
  constructor
  · simp only [enchant_pwl_suggest_core]
    exact Nat.min_le_right _ _
  · simp only [enchant_pwl_suggest_core]
    exact find_matches_errs_bounded m (m.strdown (m.nfd w)) pwl.trie _

/-- C2 counterexample: the PWL stores only "ABXD"; suggesting for the
query "abcd" runs the matcher case-insensitively (distance 1 between
"abxd" and "abcd"), so "ABXD" is returned, yet its Damerau-Levenshtein
distance to the NFD form of "abcd" is 4, exceeding max_dist = 3. -/
theorem enchant_pwl_suggest_distance_exceeds :
    enchant_pwl_suggest asciiModel
        ⟨Trie.node (some [65, 66, 88, 68]) none, [([65, 66, 88, 68], [65, 66, 88, 68])]⟩
        [97, 98, 99, 100] none = [[65, 66, 88, 68]]
    ∧ (enchant_pwl_suggest_core asciiModel
        ⟨Trie.node (some [65, 66, 88, 68]) none, [([65, 66, 88, 68], [65, 66, 88, 68])]⟩
        [97, 98, 99, 100] none).1 = 3
    ∧ dDL (asciiModel.nfd [97, 98, 99, 100]) [65, 66, 88, 68]
        (asciiModel.nfd [97, 98, 99, 100]).length ([65, 66, 88, 68] : List Nat).length
      = 4 := by
  have hfm : enchant_trie_find_matches asciiModel MatcherMode.case_insensitive
      enchant_pwl_suggest_cb [97, 98, 99, 100]
      (Trie.node (some [65, 66, 88, 68]) none) 0 [] 0 (3, [])
      = (1, [([65, 66, 88, 68], 1)]) := by
    rw [enchant_trie_find_matches]
    decide
  have hd : dDL (asciiModel.nfd [97, 98, 99, 100]) [65, 66, 88, 68]
      (asciiModel.nfd [97, 98, 99, 100]).length ([65, 66, 88, 68] : List Nat).length = 4 := by
    rw [show asciiModel.nfd [97, 98, 99, 100] = [97, 98, 99, 100] from rfl]
    rw [show ([97, 98, 99, 100] : List Nat).length = ([97, 98, 99, 100] : List Nat).length from rfl,
      ← edit_dist_eq_dDL_refine [97, 98, 99, 100] [65, 66, 88, 68]]
    decide
  refine ⟨?_, ?_, hd⟩
  · rw [enchant_pwl_suggest, enchant_pwl_suggest_core]
    simp only []
    rw [show (min (ENCHANT_PWL_MAX_ERRORS) ENCHANT_PWL_MAX_ERRORS : Nat) = 3 from rfl]
    rw [show asciiModel.strdown (asciiModel.nfd [97, 98, 99, 100]) = [97, 98, 99, 100]
      from rfl]
    rw [hfm]
    decide
  · rw [enchant_pwl_suggest_core]
    decide

theorem mem_ainsert {β : Type} (l : List (List Nat × β)) (key : List Nat) (v : β) :
    ∀ p ∈ ainsert l key v, p = (key, v) ∨ p ∈ l := by
  induction l with
  | nil =>
    intro p hp
    rw [ainsert] at hp
    exact Or.inl (List.mem_singleton.mp hp)
  | cons q r ih =>
    obtain ⟨k, w⟩ := q
    intro p hp
    rw [ainsert] at hp
    by_cases hk : k = key
    · rw [if_pos hk] at hp
      rcases List.mem_cons.mp hp with h | h
      · exact Or.inl h
      · exact Or.inr (List.mem_cons_of_mem _ h)
    · rw [if_neg hk] at hp
      rcases List.mem_cons.mp hp with h | h
      · exact Or.inr (h ▸ List.mem_cons_self _ _)
      · rcases ih p h with h2 | h2
        · exact Or.inl h2
        · exact Or.inr (List.mem_cons_of_mem _ h2)

theorem mem_keys_ainsert {β : Type} {l : List (List Nat × β)} {key : List Nat} {v : β}
    {a : List Nat} (h : a ∈ (ainsert l key v).map Prod.fst) :
    a ∈ l.map Prod.fst ∨ a = key := by
  obtain ⟨p, hp, ha⟩ := List.mem_map.mp h
  rcases mem_ainsert l key v p hp with h2 | h2
  · subst h2
    exact Or.inr ha.symm
  · exact Or.inl (List.mem_map.mpr ⟨p, h2, ha⟩)

theorem nodup_keys_ainsert {β : Type} (l : List (List Nat × β)) (key : List Nat) (v : β)
    (h : (l.map Prod.fst).Nodup) : ((ainsert l key v).map Prod.fst).Nodup := by
  induction l with
  | nil => simp [ainsert]
  | cons q r ih =>
    obtain ⟨k, w⟩ := q
    simp only [List.map_cons, List.nodup_cons] at h
    by_cases hk : k = key
    · subst hk
      rw [ainsert, if_pos rfl]
      simp only [List.map_cons, List.nodup_cons]
      exact ⟨h.1, h.2⟩
    · rw [ainsert, if_neg hk]
      simp only [List.map_cons, List.nodup_cons]
      refine ⟨?_, ih h.2⟩
      intro hmem
      rcases mem_keys_ainsert hmem with h2 | h2
      · exact h.1 h2
      · exact hk h2

theorem aremove_sublist {β : Type} (l : List (List Nat × β)) (key : List Nat) :
    List.Sublist (aremove l key) l := by
  induction l with
  | nil => rw [aremove]
  | cons q r ih =>
    obtain ⟨k, w⟩ := q
    rw [aremove]
    by_cases hk : k = key
    · rw [if_pos hk]
      exact List.sublist_cons_self _ _
    · rw [if_neg hk]
      exact ih.cons₂ _

theorem mem_aremove {β : Type} {l : List (List Nat × β)} {key : List Nat}
    {p : List Nat × β} (h : p ∈ aremove l key) : p ∈ l :=
  (aremove_sublist l key).mem h

theorem nodup_keys_aremove {β : Type} (l : List (List Nat × β)) (key : List Nat)
    (h : (l.map Prod.fst).Nodup) : ((aremove l key).map Prod.fst).Nodup :=
  h.sublist ((aremove_sublist l key).map Prod.fst)

/-- Well-formed tries: exactly the shapes enchant_trie_insert and
enchant_trie_remove produce when driven through the PWL layer.  A trie
is NULL, a leaf (a value-bearing node with NULL subtries), or a branch
(a node without value whose subtries table has pairwise distinct keys,
the end-of-string key mapping to the EOS sentinel and every other key a
single scalar mapping to a non-NULL well-formed trie). -/
inductive WFT : Trie → Prop where
  | null : WFT Trie.null
  | leaf (v : List Nat) : WFT (Trie.node (some v) none)
  | branch (ts : List (List Nat × Trie))
      (hk : (ts.map Prod.fst).Nodup)
      (hsh : ∀ p ∈ ts, (p.1 = [] ∧ p.2 = Trie.eos) ∨
        ((∃ c, p.1 = [c]) ∧ p.2 ≠ Trie.null))
      (hwf : ∀ p ∈ ts, p.1 ≠ [] → WFT p.2) :
      WFT (Trie.node none (some ts))

theorem WFT_ne_eos {t : Trie} (h : WFT t) : t ≠ Trie.eos := by
  cases h with
  | null => exact fun hc => Trie.noConfusion hc
  | leaf v => exact fun hc => Trie.noConfusion hc
  | branch ts hk hsh hwf => exact fun hc => Trie.noConfusion hc

theorem collapseSingle_ne_null (ts : List (List Nat × Trie)) :
    collapseSingle ts ≠ Trie.null := by
  unfold collapseSingle
  split
  · exact fun hc => Trie.noConfusion hc
  · exact fun hc => Trie.noConfusion hc

theorem collapseSingle_ne_eos (ts : List (List Nat × Trie)) :
    collapseSingle ts ≠ Trie.eos := by
  unfold collapseSingle
  split
  · exact fun hc => Trie.noConfusion hc
  · exact fun hc => Trie.noConfusion hc

theorem remove_eq_null {t : Trie} {w : List Nat}
    (h : enchant_trie_remove t w = Trie.null) : t = Trie.null := by
  cases t with
  | null => rfl
  | eos => rw [enchant_trie_remove] at h; exact Trie.noConfusion h
  | node v st =>
    cases v with
    | some vv =>
      rw [enchant_trie_remove] at h
      by_cases hv : vv = w
      · rw [if_pos hv] at h
        exact Trie.noConfusion h
      · rw [if_neg hv] at h
        exact Trie.noConfusion h
    | none =>
      cases st with
      | none => rw [enchant_trie_remove] at h; exact Trie.noConfusion h
      | some ts =>
        cases w with
        | nil =>
          rw [enchant_trie_remove] at h
          exact absurd h (collapseSingle_ne_null _)
        | cons c rest =>
          rw [enchant_trie_remove] at h
          cases hl : alookup ts [c] with
          | none =>
            simp only [hl] at h
            exact Trie.noConfusion h
          | some sub =>
            simp only [hl] at h
            by_cases he : isEmptyNode (enchant_trie_remove sub rest)
            · rw [if_pos he] at h
              exact absurd h (collapseSingle_ne_null _)
            · rw [if_neg he] at h
              exact absurd h (collapseSingle_ne_null _)

theorem remove_eq_eos {t : Trie} {w : List Nat}
    (h : enchant_trie_remove t w = Trie.eos) : t = Trie.eos := by
  cases t with
  | null => rw [enchant_trie_remove] at h; exact Trie.noConfusion h
  | eos => rfl
  | node v st =>
    cases v with
    | some vv =>
      rw [enchant_trie_remove] at h
      by_cases hv : vv = w
      · rw [if_pos hv] at h
        exact Trie.noConfusion h
      · rw [if_neg hv] at h
        exact Trie.noConfusion h
    | none =>
      cases st with
      | none => rw [enchant_trie_remove] at h; exact Trie.noConfusion h
      | some ts =>
        cases w with
        | nil =>
          rw [enchant_trie_remove] at h
          exact absurd h (collapseSingle_ne_eos _)
        | cons c rest =>
          rw [enchant_trie_remove] at h
          cases hl : alookup ts [c] with
          | none =>
            simp only [hl] at h
            exact Trie.noConfusion h
          | some sub =>
            simp only [hl] at h
            by_cases he : isEmptyNode (enchant_trie_remove sub rest)
            · rw [if_pos he] at h
              exact absurd h (collapseSingle_ne_eos _)
            · rw [if_neg he] at h
              exact absurd h (collapseSingle_ne_eos _)

theorem trieContains_branch_some {ts : List (List Nat × Trie)} {w : List Nat} {t2 : Trie}
    (h : alookup ts (headKey w) = some t2) :
    trieContains (Trie.node none (some ts)) w = trieContains t2 w.tail := by
  rw [trieContains_branch, h]

theorem trieContains_branch_none {ts : List (List Nat × Trie)} {w : List Nat}
    (h : alookup ts (headKey w) = none) :
    trieContains (Trie.node none (some ts)) w = false := by
  rw [trieContains_branch, h]

/-- Collapsing a single leaf child into its parent does not change the
set of stored words, provided every key of the table is the end-of-string
key (mapping to the EOS sentinel) or a single scalar. -/
theorem collapseSingle_contains (ts : List (List Nat × Trie))
    (hsh : ∀ p ∈ ts, (p.1 = [] ∧ p.2 = Trie.eos) ∨ (∃ c, p.1 = [c])) (x : List Nat) :
    trieContains (collapseSingle ts) x = trieContains (Trie.node none (some ts)) x := by
  unfold collapseSingle
  split
  next k v st =>
    rcases hsh (k, Trie.node (some v) st) (List.mem_singleton.mpr rfl) with ⟨_, he⟩ | ⟨c, hc⟩
    · exact absurd he (fun hc2 => Trie.noConfusion hc2)
    · subst hc
      rw [trieContains_value]
      cases x with
      | nil =>
        rw [trieContains_branch_none (by simp [headKey, alookup])]
        simp
      | cons d xs =>
        by_cases hd : c = d
        · subst hd
          rw [trieContains_branch_some (show alookup [([c], Trie.node (some v) st)]
            (headKey (c :: xs)) = some (Trie.node (some v) st) from by
              simp [headKey, alookup])]
          rw [List.tail_cons, trieContains_value]
          simp
        · rw [trieContains_branch_none (by simp [headKey, alookup, hd])]
          simp only [List.cons_append, List.nil_append, List.cons.injEq, decide_eq_false_iff_not,
            not_and]
          exact fun h2 h3 => hd h2.symm
  next => rfl

/-- Collapsing keeps well-formedness. -/
theorem collapseSingle_WFT (ts : List (List Nat × Trie))
    (hk : (ts.map Prod.fst).Nodup)
    (hsh : ∀ p ∈ ts, (p.1 = [] ∧ p.2 = Trie.eos) ∨
      ((∃ c, p.1 = [c]) ∧ p.2 ≠ Trie.null))
    (hwf : ∀ p ∈ ts, p.1 ≠ [] → WFT p.2) :
    WFT (collapseSingle ts) := by
  unfold collapseSingle
  split
  next k v st => exact WFT.leaf _
  next => exact WFT.branch _ hk hsh hwf

theorem singletonTable_contains (v x : List Nat) :
    trieContains (Trie.node none (some (singletonTable v))) x = decide (x = v) := by
  cases v with
  | nil =>
    cases x with
    | nil =>
      rw [show singletonTable [] = [([], Trie.eos)] from rfl,
        trieContains_branch_some (show alookup [([], Trie.eos)] (headKey ([] : List Nat))
          = some Trie.eos from by simp [headKey, alookup])]
      simp
    | cons d xs =>
      rw [show singletonTable [] = [([], Trie.eos)] from rfl,
        trieContains_branch_none (by simp [headKey, alookup])]
      simp
  | cons c cs =>
    cases x with
    | nil =>
      rw [show singletonTable (c :: cs) = [([c], Trie.node (some cs) none)] from rfl,
        trieContains_branch_none (by simp [headKey, alookup])]
      simp
    | cons d xs =>
      by_cases hd : c = d
      · subst hd
        rw [show singletonTable (c :: cs) = [([c], Trie.node (some cs) none)] from rfl,
          trieContains_branch_some (show alookup [([c], Trie.node (some cs) none)]
            (headKey (c :: xs)) = some (Trie.node (some cs) none) from by
              simp [headKey, alookup])]
        rw [List.tail_cons, trieContains_value]
        simp
      · rw [show singletonTable (c :: cs) = [([c], Trie.node (some cs) none)] from rfl,
          trieContains_branch_none (by simp [headKey, alookup, hd])]
        symm
        simp only [List.cons.injEq, decide_eq_false_iff_not, not_and]
        exact fun h2 h3 => hd h2.symm

theorem singletonTable_nodup (v : List Nat) :
    ((singletonTable v).map Prod.fst).Nodup := by
  cases v <;> simp [singletonTable]

theorem singletonTable_shape (v : List Nat) :
    ∀ p ∈ singletonTable v, (p.1 = [] ∧ p.2 = Trie.eos) ∨
      ((∃ c, p.1 = [c]) ∧ p.2 ≠ Trie.null) := by
  cases v with
  | nil =>
    intro p hp
    rw [show singletonTable [] = [([], Trie.eos)] from rfl, List.mem_singleton] at hp
    subst hp
    exact Or.inl ⟨rfl, rfl⟩
  | cons c cs =>
    intro p hp
    rw [show singletonTable (c :: cs) = [([c], Trie.node (some cs) none)] from rfl,
      List.mem_singleton] at hp
    subst hp
    exact Or.inr ⟨⟨c, rfl⟩, fun hc => Trie.noConfusion hc⟩

theorem singletonTable_wf (v : List Nat) :
    ∀ p ∈ singletonTable v, p.1 ≠ [] → WFT p.2 := by
  cases v with
  | nil =>
    intro p hp hne
    rw [show singletonTable [] = [([], Trie.eos)] from rfl, List.mem_singleton] at hp
    subst hp
    exact absurd rfl hne
  | cons c cs =>
    intro p hp _
    rw [show singletonTable (c :: cs) = [([c], Trie.node (some cs) none)] from rfl,
      List.mem_singleton] at hp
    subst hp
    exact WFT.leaf cs

/-- enchant_trie_insert never returns the NULL trie or the EOS sentinel
when its input is not the sentinel. -/
theorem insert_is_node (t : Trie) (w : List Nat) (h : t ≠ Trie.eos) :
    ∃ v st, enchant_trie_insert t w = Trie.node v st := by
  cases t with
  | null => cases w <;> exact ⟨_, _, rfl⟩
  | eos => exact absurd rfl h
  | node v0 st0 =>
    cases v0 with
    | some vv => cases w <;> exact ⟨_, _, rfl⟩
    | none =>
      cases st0 with
      | none => cases w <;> exact ⟨_, _, rfl⟩
      | some ts => cases w <;> exact ⟨_, _, rfl⟩

/-- The promotion branch of enchant_trie_insert coincides with inserting
into a branch holding the promoted singleton table. -/
theorem insert_leaf_eq_promoted (v : List Nat) (st : Option (List (List Nat × Trie)))
    (w : List Nat) :
    enchant_trie_insert (Trie.node (some v) st) w
      = enchant_trie_insert (Trie.node none (some (singletonTable v))) w := by
  cases w <;> rfl

theorem isEmptyNode_cases {t : Trie} (h : isEmptyNode t = true) :
    t = Trie.eos ∨ t = Trie.node none none := by
  cases t with
  | null =>
    rw [show isEmptyNode Trie.null = false from rfl] at h
    exact Bool.noConfusion h
  | eos => exact Or.inl rfl
  | node v st =>
    cases v with
    | some vv =>
      cases st with
      | none =>
        rw [show isEmptyNode (Trie.node (some vv) none) = false from rfl] at h
        exact Bool.noConfusion h
      | some ts =>
        rw [show isEmptyNode (Trie.node (some vv) (some ts)) = false from rfl] at h
        exact Bool.noConfusion h
    | none =>
      cases st with
      | none => exact Or.inr rfl
      | some ts =>
        rw [show isEmptyNode (Trie.node none (some ts)) = false from rfl] at h
        exact Bool.noConfusion h

/-- Inserting a word into a well-formed trie yields a well-formed trie. -/
theorem WFT_insert : ∀ (w : List Nat) (t : Trie), WFT t →
    WFT (enchant_trie_insert t w) := by
  intro w
  induction w with
  | nil =>
    intro t hW
    cases hW with
    | null => exact WFT.leaf []
    | leaf v =>
      rw [insert_leaf_eq_promoted]
      show WFT (Trie.node none (some (ainsert (singletonTable v) [] Trie.eos)))
      refine WFT.branch _ (nodup_keys_ainsert _ _ _ (singletonTable_nodup v)) ?_ ?_
      · intro p hp
        rcases mem_ainsert _ _ _ p hp with h | h
        · subst h
          exact Or.inl ⟨rfl, rfl⟩
        · exact singletonTable_shape v p h
      · intro p hp hne
        rcases mem_ainsert _ _ _ p hp with h | h
        · subst h
          exact absurd rfl hne
        · exact singletonTable_wf v p h hne
    | branch ts hk hsh hwf =>
      show WFT (Trie.node none (some (ainsert ts [] Trie.eos)))
      refine WFT.branch _ (nodup_keys_ainsert _ _ _ hk) ?_ ?_
      · intro p hp
        rcases mem_ainsert _ _ _ p hp with h | h
        · subst h
          exact Or.inl ⟨rfl, rfl⟩
        · exact hsh p h
      · intro p hp hne
        rcases mem_ainsert _ _ _ p hp with h | h
        · subst h
          exact absurd rfl hne
        · exact hwf p h hne
  | cons c rest ih =>
    intro t hW
    have hbranch : ∀ ts, ((ts.map Prod.fst).Nodup) →
        (∀ p ∈ ts, (p.1 = [] ∧ p.2 = Trie.eos) ∨ ((∃ c2, p.1 = [c2]) ∧ p.2 ≠ Trie.null)) →
        (∀ p ∈ ts, p.1 ≠ [] → WFT p.2) →
        WFT (enchant_trie_insert (Trie.node none (some ts)) (c :: rest)) := by
      intro ts hk hsh hwf
      show WFT (Trie.node none (some (ainsert ts [c]
        (enchant_trie_insert ((alookup ts [c]).getD Trie.null) rest))))
      have hsub0 : WFT ((alookup ts [c]).getD Trie.null) := by
        cases hl : alookup ts [c] with
        | none => exact WFT.null
        | some sub =>
          have h2 := hwf ([c], sub) (alookup_mem hl) (by simp)
          simpa using h2
      have hsub0ne : (alookup ts [c]).getD Trie.null ≠ Trie.eos := WFT_ne_eos hsub0
      obtain ⟨v2, st2, hN⟩ := insert_is_node _ rest hsub0ne
      refine WFT.branch _ (nodup_keys_ainsert _ _ _ hk) ?_ ?_
      · intro p hp
        rcases mem_ainsert _ _ _ p hp with h | h
        · subst h
          refine Or.inr ⟨⟨c, rfl⟩, ?_⟩
          show enchant_trie_insert ((alookup ts [c]).getD Trie.null) rest ≠ Trie.null
          rw [hN]
          exact fun hc => Trie.noConfusion hc
        · exact hsh p h
      · intro p hp hne
        rcases mem_ainsert _ _ _ p hp with h | h
        · subst h
          exact ih _ hsub0
        · exact hwf p h hne
    cases hW with
    | null => exact WFT.leaf _
    | leaf v =>
      rw [insert_leaf_eq_promoted]
      exact hbranch (singletonTable v) (singletonTable_nodup v) (singletonTable_shape v)
        (singletonTable_wf v)
    | branch ts hk hsh hwf => exact hbranch ts hk hsh hwf

/-- Inserting a word into a well-formed trie adds exactly that word to
the stored set. -/
theorem insert_contains : ∀ (w : List Nat) (t : Trie), WFT t → ∀ x,
    trieContains (enchant_trie_insert t w) x
      = (trieContains t x || decide (x = w)) := by
  intro w
  induction w with
  | nil =>
    intro t hW x
    have hbranch : ∀ ts x2, trieContains (enchant_trie_insert (Trie.node none (some ts)) []) x2
        = (trieContains (Trie.node none (some ts)) x2 || decide (x2 = [])) := by
      intro ts x2
      show trieContains (Trie.node none (some (ainsert ts [] Trie.eos))) x2 = _
      cases x2 with
      | nil =>
        rw [trieContains_branch_some (show alookup (ainsert ts [] Trie.eos)
          (headKey []) = some Trie.eos from alookup_ainsert ts [] Trie.eos)]
        simp
      | cons d xs =>
        have ha : alookup (ainsert ts [] Trie.eos) [d] = alookup ts [d] :=
          alookup_ainsert_ne ts [] [d] Trie.eos (by simp)
        cases hl : alookup ts [d] with
        | some t2 =>
          rw [trieContains_branch_some (show alookup (ainsert ts [] Trie.eos)
              (headKey (d :: xs)) = some t2 from ha.trans hl),
            trieContains_branch_some (show alookup ts (headKey (d :: xs)) = some t2 from hl)]
          simp
        | none =>
          rw [trieContains_branch_none (show alookup (ainsert ts [] Trie.eos)
              (headKey (d :: xs)) = none from ha.trans hl),
            trieContains_branch_none (show alookup ts (headKey (d :: xs)) = none from hl)]
          simp
    cases hW with
    | null =>
      show trieContains (Trie.node (some []) none) x = _
      rw [trieContains_value, trieContains_null]
      simp
    | leaf v =>
      rw [insert_leaf_eq_promoted, hbranch (singletonTable v) x, singletonTable_contains,
        trieContains_value]
    | branch ts hk hsh hwf => exact hbranch ts x
  | cons c rest ih =>
    intro t hW x
    have hbranch : ∀ ts, (∀ p ∈ ts, p.1 ≠ [] → WFT p.2) → ∀ x2,
        trieContains (enchant_trie_insert (Trie.node none (some ts)) (c :: rest)) x2
          = (trieContains (Trie.node none (some ts)) x2 || decide (x2 = c :: rest)) := by
      intro ts hwf x2
      have hsub0 : WFT ((alookup ts [c]).getD Trie.null) := by
        cases hl : alookup ts [c] with
        | none => exact WFT.null
        | some sub =>
          have h2 := hwf ([c], sub) (alookup_mem hl) (by simp)
          simpa using h2
      have hN := ih ((alookup ts [c]).getD Trie.null) hsub0
      show trieContains (Trie.node none (some (ainsert ts [c]
        (enchant_trie_insert ((alookup ts [c]).getD Trie.null) rest)))) x2 = _
      cases x2 with
      | nil =>
        have ha : alookup (ainsert ts [c]
            (enchant_trie_insert ((alookup ts [c]).getD Trie.null) rest)) ([] : List Nat)
            = alookup ts [] := alookup_ainsert_ne _ _ _ _ (by simp)
        cases hl0 : alookup ts [] with
        | some t2 =>
          rw [trieContains_branch_some (show alookup (ainsert ts [c]
              (enchant_trie_insert ((alookup ts [c]).getD Trie.null) rest))
              (headKey ([] : List Nat)) = some t2 from ha.trans hl0),
            trieContains_branch_some (show alookup ts (headKey ([] : List Nat)) = some t2
              from hl0)]
          simp
        | none =>
          rw [trieContains_branch_none (show alookup (ainsert ts [c]
              (enchant_trie_insert ((alookup ts [c]).getD Trie.null) rest))
              (headKey ([] : List Nat)) = none from ha.trans hl0),
            trieContains_branch_none (show alookup ts (headKey ([] : List Nat)) = none
              from hl0)]
          simp
      | cons d xs =>
        by_cases hd : c = d
        · subst hd
          rw [trieContains_branch_some (show alookup (ainsert ts [c]
              (enchant_trie_insert ((alookup ts [c]).getD Trie.null) rest))
              (headKey (c :: xs))
              = some (enchant_trie_insert ((alookup ts [c]).getD Trie.null) rest)
              from alookup_ainsert _ _ _)]
          rw [show (c :: xs).tail = xs from rfl, hN xs]
          rw [show (decide (c :: xs = c :: rest)) = decide (xs = rest) from
            decide_eq_decide.mpr (by simp)]
          cases hl : alookup ts [c] with
          | some sub =>
            rw [trieContains_branch_some (show alookup ts (headKey (c :: xs)) = some sub
              from hl)]
            rw [show (c :: xs).tail = xs from rfl]
            simp only [Option.getD_some]
          | none =>
            rw [trieContains_branch_none (show alookup ts (headKey (c :: xs)) = none
              from hl)]
            simp only [Option.getD_none, trieContains_null]
        · have ha : alookup (ainsert ts [c]
              (enchant_trie_insert ((alookup ts [c]).getD Trie.null) rest)) [d]
              = alookup ts [d] := alookup_ainsert_ne _ _ _ _ (by simp [hd])
          have hdec : decide (d :: xs = c :: rest) = false := by
            simp only [List.cons.injEq, decide_eq_false_iff_not, not_and]
            exact fun h2 _ => hd h2.symm
          cases hl : alookup ts [d] with
          | some t2 =>
            rw [trieContains_branch_some (show alookup (ainsert ts [c]
                (enchant_trie_insert ((alookup ts [c]).getD Trie.null) rest))
                (headKey (d :: xs)) = some t2 from ha.trans hl),
              trieContains_branch_some (show alookup ts (headKey (d :: xs)) = some t2
                from hl), hdec]
            simp
          | none =>
            rw [trieContains_branch_none (show alookup (ainsert ts [c]
                (enchant_trie_insert ((alookup ts [c]).getD Trie.null) rest))
                (headKey (d :: xs)) = none from ha.trans hl),
              trieContains_branch_none (show alookup ts (headKey (d :: xs)) = none
                from hl), hdec]
            simp
    cases hW with
    | null =>
      show trieContains (Trie.node (some (c :: rest)) none) x = _
      rw [trieContains_value, trieContains_null]
      simp
    | leaf v =>
      rw [insert_leaf_eq_promoted, hbranch (singletonTable v) (singletonTable_wf v) x,
        singletonTable_contains, trieContains_value]
    | branch ts hk hsh hwf => exact hbranch ts hwf x

theorem remove_leaf_contains (v st2 w x : List Nat) :
    trieContains (enchant_trie_remove (Trie.node (some v) none) w) x
      = (trieContains (Trie.node (some v) none) x && !decide (x = w)) := by
  rw [enchant_trie_remove]
  by_cases hv : v = w
  · rw [if_pos hv]
    subst hv
    rw [trieContains_nn, trieContains_value]
    by_cases hx : x = v
    · subst hx
      simp
    · simp [hx]
  · rw [if_neg hv]
    rw [trieContains_value]
    by_cases hx : x = v
    · subst hx
      simp [hv]
    · simp [hx]

/-- Removing a word from a well-formed trie removes exactly that word
from the stored set (removing an absent word along a path whose child
exists behaves likewise; the genuinely absent-child case leaves the node
unchanged, which also removes nothing). -/
theorem remove_contains : ∀ (w : List Nat) (t : Trie), WFT t → ∀ x,
    trieContains (enchant_trie_remove t w) x
      = (trieContains t x && !decide (x = w)) := by
  intro w
  induction w with
  | nil =>
    intro t hW x
    cases hW with
    | null =>
      rw [show enchant_trie_remove Trie.null [] = Trie.null from rfl]
      simp
    | leaf v => exact remove_leaf_contains v [] [] x
    | branch ts hk hsh hwf =>
      have hshape : ∀ p ∈ aremove ts [], (p.1 = [] ∧ p.2 = Trie.eos) ∨ (∃ c2, p.1 = [c2]) :=
        fun p hp => (hsh p (mem_aremove hp)).imp id And.left
      show trieContains (collapseSingle (aremove ts [])) x = _
      rw [collapseSingle_contains _ hshape]
      cases x with
      | nil =>
        rw [trieContains_branch_none (show alookup (aremove ts []) (headKey ([] : List Nat))
          = none from alookup_aremove_self ts [] hk)]
        simp
      | cons d xs =>
        have ha : alookup (aremove ts []) [d] = alookup ts [d] :=
          alookup_aremove_ne ts [] [d] (by simp)
        cases hl : alookup ts [d] with
        | some t2 =>
          rw [trieContains_branch_some (show alookup (aremove ts []) (headKey (d :: xs))
              = some t2 from ha.trans hl),
            trieContains_branch_some (show alookup ts (headKey (d :: xs)) = some t2 from hl)]
          simp
        | none =>
          rw [trieContains_branch_none (show alookup (aremove ts []) (headKey (d :: xs))
              = none from ha.trans hl),
            trieContains_branch_none (show alookup ts (headKey (d :: xs)) = none from hl)]
          simp
  | cons c rest ih =>
    intro t hW x
    cases hW with
    | null =>
      rw [show enchant_trie_remove Trie.null (c :: rest) = Trie.null from rfl]
      simp
    | leaf v => exact remove_leaf_contains v [] (c :: rest) x
    | branch ts hk hsh hwf =>
      rw [enchant_trie_remove]
      cases hl : alookup ts [c] with
      | none =>
        simp only [hl]
        by_cases hx : x = c :: rest
        · subst hx
          rw [trieContains_branch_none (show alookup ts (headKey (c :: rest)) = none from hl)]
          simp
        · simp [hx]
      | some sub =>
        have hmem := alookup_mem hl
        have hWsub : WFT sub := by simpa using hwf ([c], sub) hmem (by simp)
        have hih := ih sub hWsub
        simp only [hl]
        by_cases hemp : isEmptyNode (enchant_trie_remove sub rest)
        · rw [if_pos hemp]
          have hsub2 : enchant_trie_remove sub rest = Trie.node none none := by
            rcases isEmptyNode_cases hemp with h2 | h2
            · exact absurd (remove_eq_eos h2) (WFT_ne_eos hWsub)
            · exact h2
          have hkey : ∀ y, (trieContains sub y && !decide (y = rest)) = false := by
            intro y
            rw [← hih y, hsub2]
            exact trieContains_nn y
          have hshape : ∀ p ∈ aremove ts [c],
              (p.1 = [] ∧ p.2 = Trie.eos) ∨ (∃ c2, p.1 = [c2]) :=
            fun p hp => (hsh p (mem_aremove hp)).imp id And.left
          rw [collapseSingle_contains _ hshape]
          cases x with
          | nil =>
            have ha : alookup (aremove ts [c]) ([] : List Nat) = alookup ts [] :=
              alookup_aremove_ne ts [c] [] (by simp)
            cases hl0 : alookup ts [] with
            | some t2 =>
              rw [trieContains_branch_some (show alookup (aremove ts [c])
                  (headKey ([] : List Nat)) = some t2 from ha.trans hl0),
                trieContains_branch_some (show alookup ts (headKey ([] : List Nat)) = some t2
                  from hl0)]
              simp
            | none =>
              rw [trieContains_branch_none (show alookup (aremove ts [c])
                  (headKey ([] : List Nat)) = none from ha.trans hl0),
                trieContains_branch_none (show alookup ts (headKey ([] : List Nat)) = none
                  from hl0)]
              simp
          | cons d xs =>
            by_cases hd : c = d
            · subst hd
              rw [trieContains_branch_none (show alookup (aremove ts [c])
                  (headKey (c :: xs)) = none from alookup_aremove_self ts [c] hk)]
              rw [trieContains_branch_some (show alookup ts (headKey (c :: xs)) = some sub
                from hl)]
              rw [show (c :: xs).tail = xs from rfl]
              rw [show (decide (c :: xs = c :: rest)) = decide (xs = rest) from
                decide_eq_decide.mpr (by simp)]
              exact (hkey xs).symm
            · have ha : alookup (aremove ts [c]) [d] = alookup ts [d] :=
                alookup_aremove_ne ts [c] [d] (by simp [hd])
              have hdec : decide (d :: xs = c :: rest) = false := by
                simp only [List.cons.injEq, decide_eq_false_iff_not, not_and]
                exact fun h2 _ => hd h2.symm
              cases hl2 : alookup ts [d] with
              | some t2 =>
                rw [trieContains_branch_some (show alookup (aremove ts [c])
                    (headKey (d :: xs)) = some t2 from ha.trans hl2),
                  trieContains_branch_some (show alookup ts (headKey (d :: xs)) = some t2
                    from hl2), hdec]
                simp
              | none =>
                rw [trieContains_branch_none (show alookup (aremove ts [c])
                    (headKey (d :: xs)) = none from ha.trans hl2),
                  trieContains_branch_none (show alookup ts (headKey (d :: xs)) = none
                    from hl2), hdec]
                simp
        · rw [if_neg hemp]
          have hshape : ∀ p ∈ ainsert ts [c] (enchant_trie_remove sub rest),
              (p.1 = [] ∧ p.2 = Trie.eos) ∨ (∃ c2, p.1 = [c2]) := by
            intro p hp
            rcases mem_ainsert _ _ _ p hp with h2 | h2
            · subst h2
              exact Or.inr ⟨c, rfl⟩
            · exact (hsh p h2).imp id And.left
          rw [collapseSingle_contains _ hshape]
          cases x with
          | nil =>
            have ha : alookup (ainsert ts [c] (enchant_trie_remove sub rest)) ([] : List Nat)
                = alookup ts [] := alookup_ainsert_ne _ _ _ _ (by simp)
            cases hl0 : alookup ts [] with
            | some t2 =>
              rw [trieContains_branch_some (show alookup (ainsert ts [c]
                  (enchant_trie_remove sub rest)) (headKey ([] : List Nat)) = some t2
                  from ha.trans hl0),
                trieContains_branch_some (show alookup ts (headKey ([] : List Nat)) = some t2
                  from hl0)]
              simp
            | none =>
              rw [trieContains_branch_none (show alookup (ainsert ts [c]
                  (enchant_trie_remove sub rest)) (headKey ([] : List Nat)) = none
                  from ha.trans hl0),
                trieContains_branch_none (show alookup ts (headKey ([] : List Nat)) = none
                  from hl0)]
              simp
          | cons d xs =>
            by_cases hd : c = d
            · subst hd
              rw [trieContains_branch_some (show alookup (ainsert ts [c]
                  (enchant_trie_remove sub rest)) (headKey (c :: xs))
                  = some (enchant_trie_remove sub rest) from alookup_ainsert _ _ _)]
              rw [show (c :: xs).tail = xs from rfl, hih xs]
              rw [trieContains_branch_some (show alookup ts (headKey (c :: xs)) = some sub
                from hl)]
              rw [show (c :: xs).tail = xs from rfl]
              rw [show (decide (c :: xs = c :: rest)) = decide (xs = rest) from
                decide_eq_decide.mpr (by simp)]
            · have ha : alookup (ainsert ts [c] (enchant_trie_remove sub rest)) [d]
                  = alookup ts [d] := alookup_ainsert_ne _ _ _ _ (by simp [hd])
              have hdec : decide (d :: xs = c :: rest) = false := by
                simp only [List.cons.injEq, decide_eq_false_iff_not, not_and]
                exact fun h2 _ => hd h2.symm
              cases hl2 : alookup ts [d] with
              | some t2 =>
                rw [trieContains_branch_some (show alookup (ainsert ts [c]
                    (enchant_trie_remove sub rest)) (headKey (d :: xs)) = some t2
                    from ha.trans hl2),
                  trieContains_branch_some (show alookup ts (headKey (d :: xs)) = some t2
                    from hl2), hdec]
                simp
              | none =>
                rw [trieContains_branch_none (show alookup (ainsert ts [c]
                    (enchant_trie_remove sub rest)) (headKey (d :: xs)) = none
                    from ha.trans hl2),
                  trieContains_branch_none (show alookup ts (headKey (d :: xs)) = none
                    from hl2), hdec]
                simp

/-- Removing a word from a well-formed trie yields a well-formed trie or
the cleared node that enchant_pwl_remove_from_trie resets to NULL. -/
theorem WFT_remove : ∀ (w : List Nat) (t : Trie), WFT t →
    WFT (enchant_trie_remove t w) ∨ enchant_trie_remove t w = Trie.node none none := by
  intro w
  induction w with
  | nil =>
    intro t hW
    cases hW with
    | null => exact Or.inl WFT.null
    | leaf v =>
      rw [enchant_trie_remove]
      by_cases hv : v = []
      · rw [if_pos hv]
        exact Or.inr rfl
      · rw [if_neg hv]
        exact Or.inl (WFT.leaf v)
    | branch ts hk hsh hwf =>
      refine Or.inl ?_
      show WFT (collapseSingle (aremove ts []))
      exact collapseSingle_WFT _ (nodup_keys_aremove ts [] hk)
        (fun p hp => hsh p (mem_aremove hp))
        (fun p hp hne => hwf p (mem_aremove hp) hne)
  | cons c rest ih =>
    intro t hW
    cases hW with
    | null => exact Or.inl WFT.null
    | leaf v =>
      rw [enchant_trie_remove]
      by_cases hv : v = c :: rest
      · rw [if_pos hv]
        exact Or.inr rfl
      · rw [if_neg hv]
        exact Or.inl (WFT.leaf v)
    | branch ts hk hsh hwf =>
      rw [enchant_trie_remove]
      cases hl : alookup ts [c] with
      | none =>
        simp only [hl]
        exact Or.inl (WFT.branch ts hk hsh hwf)
      | some sub =>
        have hmem := alookup_mem hl
        have hWsub : WFT sub := by simpa using hwf ([c], sub) hmem (by simp)
        simp only [hl]
        by_cases hemp : isEmptyNode (enchant_trie_remove sub rest)
        · rw [if_pos hemp]
          refine Or.inl (collapseSingle_WFT _ (nodup_keys_aremove ts [c] hk)
            (fun p hp => hsh p (mem_aremove hp))
            (fun p hp hne => hwf p (mem_aremove hp) hne))
        · rw [if_neg hemp]
          have hWsub2 : WFT (enchant_trie_remove sub rest) := by
            rcases ih sub hWsub with h2 | h2
            · exact h2
            · rw [h2] at hemp
              exact absurd (show isEmptyNode (Trie.node none none) = true from rfl) hemp
          have hsub2ne : enchant_trie_remove sub rest ≠ Trie.null := by
            intro hc
            have := remove_eq_null hc
            rcases hsh ([c], sub) hmem with ⟨h1, _⟩ | ⟨_, h2⟩
            · exact absurd h1 (by simp)
            · exact h2 this
          refine Or.inl (collapseSingle_WFT _ (nodup_keys_ainsert ts [c] _ hk) ?_ ?_)
          · intro p hp
            rcases mem_ainsert _ _ _ p hp with h2 | h2
            · subst h2
              exact Or.inr ⟨⟨c, rfl⟩, hsub2ne⟩
            · exact hsh p h2
          · intro p hp hne
            rcases mem_ainsert _ _ _ p hp with h2 | h2
            · subst h2
              exact hWsub2
            · exact hwf p h2 hne

/-- C7 amended: for a word whose NFD form is fresh (not a words_in_trie
key and not stored in the trie), adding it through
enchant_pwl_add_to_trie and then removing it through
enchant_pwl_remove_from_trie restores the words_in_trie table exactly
and restores the set of words stored in the trie, hence every
enchant_pwl_check result.  The trie need not be restored structurally
(a leaf may come back as an equivalent branch chain), so check results
are preserved but the suggestion traversal order is not guaranteed
identical; and for a word already present the round trip genuinely
deletes it (see the counterexample). -/
theorem enchant_pwl_add_remove_roundtrip (m : UniModel) (pwl : EnchantPWL) (w : List Nat)
    (hWFT : WFT pwl.trie)
    (hfresh : alookup pwl.words_in_trie (m.nfd w) = none)
    (htfresh : trieContains pwl.trie (m.nfd w) = false) :
    (enchant_pwl_remove_from_trie m (enchant_pwl_add_to_trie m pwl w) w).words_in_trie
      = pwl.words_in_trie
    ∧ (∀ x, trieContains
        (enchant_pwl_remove_from_trie m (enchant_pwl_add_to_trie m pwl w) w).trie x
        = trieContains pwl.trie x)
    ∧ (∀ x, enchant_pwl_check m
        (enchant_pwl_remove_from_trie m (enchant_pwl_add_to_trie m pwl w) w) x
        = enchant_pwl_check m pwl x) := by
  have hadd : enchant_pwl_add_to_trie m pwl w
      = { trie := enchant_trie_insert pwl.trie (m.nfd w)
          words_in_trie := ainsert pwl.words_in_trie (m.nfd w) w } := by
    rw [enchant_pwl_add_to_trie]
    simp only [hfresh]
  have hlook : alookup (ainsert pwl.words_in_trie (m.nfd w) w) (m.nfd w) = some w :=
    alookup_ainsert _ _ _
  have hrm : enchant_pwl_remove_from_trie m (enchant_pwl_add_to_trie m pwl w) w
      = { trie := if isEmptyNode (enchant_trie_remove
            (enchant_trie_insert pwl.trie (m.nfd w)) (m.nfd w)) then Trie.null
            else enchant_trie_remove (enchant_trie_insert pwl.trie (m.nfd w)) (m.nfd w)
          words_in_trie := aremove (ainsert pwl.words_in_trie (m.nfd w) w) (m.nfd w) } := by
    rw [hadd, enchant_pwl_remove_from_trie]
    simp only [hlook]
  have hwords : aremove (ainsert pwl.words_in_trie (m.nfd w) w) (m.nfd w)
      = pwl.words_in_trie := aremove_ainsert_fresh _ _ _ hfresh
  have hW1 : WFT (enchant_trie_insert pwl.trie (m.nfd w)) := WFT_insert _ _ hWFT
  have hcontrm : ∀ x, trieContains (enchant_trie_remove
      (enchant_trie_insert pwl.trie (m.nfd w)) (m.nfd w)) x = trieContains pwl.trie x := by
    intro x
    rw [remove_contains _ _ hW1 x, insert_contains _ _ hWFT x]
    by_cases hx : x = m.nfd w
    · subst hx
      simp [htfresh]
    · simp [hx]
  have hconteq : ∀ x, trieContains
      (enchant_pwl_remove_from_trie m (enchant_pwl_add_to_trie m pwl w) w).trie x
      = trieContains pwl.trie x := by
    intro x
    rw [hrm]
    by_cases hemp : isEmptyNode (enchant_trie_remove
        (enchant_trie_insert pwl.trie (m.nfd w)) (m.nfd w))
    · show trieContains (if isEmptyNode _ = true then Trie.null else _) x = _
      rw [if_pos hemp, trieContains_null, ← hcontrm x]
      rcases WFT_remove (m.nfd w) _ hW1 with h2 | h2
      · rcases isEmptyNode_cases hemp with h3 | h3
        · exact absurd h3 (WFT_ne_eos h2)
        · rw [h3, trieContains_nn]
      · rw [h2, trieContains_nn]
    · show trieContains (if isEmptyNode _ = true then Trie.null else _) x = _
      rw [if_neg hemp]
      exact hcontrm x
  refine ⟨by rw [hrm]; exact hwords, hconteq, ?_⟩
  intro x
  have hc : ∀ y, enchant_pwl_contains m
      (enchant_pwl_remove_from_trie m (enchant_pwl_add_to_trie m pwl w) w) y
      = enchant_pwl_contains m pwl y := by
    intro y
    rw [enchant_pwl_contains_iff, enchant_pwl_contains_iff, hconteq]
  simp only [enchant_pwl_check, hc]

/-- Witness for C7 at a concrete fresh word: the one-word PWL storing
scalar 1, with scalar 2 added and removed. -/
theorem enchant_pwl_add_remove_roundtrip_witness :
    (enchant_pwl_remove_from_trie asciiModel (enchant_pwl_add_to_trie asciiModel
        ⟨Trie.node (some [1]) none, [([1], [1])]⟩ [2]) [2]).words_in_trie
      = [([1], [1])]
    ∧ (∀ x, trieContains ((enchant_pwl_remove_from_trie asciiModel
        (enchant_pwl_add_to_trie asciiModel
          ⟨Trie.node (some [1]) none, [([1], [1])]⟩ [2]) [2]).trie) x
        = trieContains (Trie.node (some [1]) none) x)
    ∧ (∀ x, enchant_pwl_check asciiModel (enchant_pwl_remove_from_trie asciiModel
        (enchant_pwl_add_to_trie asciiModel
          ⟨Trie.node (some [1]) none, [([1], [1])]⟩ [2]) [2]) x
        = enchant_pwl_check asciiModel ⟨Trie.node (some [1]) none, [([1], [1])]⟩ x) :=
  enchant_pwl_add_remove_roundtrip asciiModel ⟨Trie.node (some [1]) none, [([1], [1])]⟩ [2]
    (WFT.leaf [1]) (by decide) (by simp [asciiModel])

/-- C7 counterexample: for a word already in the word set, adding is a
deduplicated no-op but removing genuinely deletes: starting from the PWL
over W = { "a" }, adding "a" and then removing it empties the PWL, and
check("a") flips from found (0) to not found (1). -/
theorem enchant_pwl_add_remove_member_breaks :
    enchant_pwl_remove_from_trie asciiModel (enchant_pwl_add_to_trie asciiModel
        ⟨Trie.node (some [97]) none, [([97], [97])]⟩ [97]) [97]
      = ⟨Trie.null, []⟩
    ∧ enchant_pwl_check asciiModel (enchant_pwl_remove_from_trie asciiModel
        (enchant_pwl_add_to_trie asciiModel
          ⟨Trie.node (some [97]) none, [([97], [97])]⟩ [97]) [97]) [97] = 1
    ∧ enchant_pwl_check asciiModel ⟨Trie.node (some [97]) none, [([97], [97])]⟩ [97] = 0 := by
  have h2 : enchant_pwl_remove_from_trie asciiModel (enchant_pwl_add_to_trie asciiModel
      ⟨Trie.node (some [97]) none, [([97], [97])]⟩ [97]) [97]
      = ⟨Trie.null, []⟩ := rfl
  have hc1 : enchant_pwl_check asciiModel ⟨Trie.null, []⟩ [97] = 1 := by
    rw [enchant_pwl_check]
    rw [show enchant_pwl_contains asciiModel ⟨Trie.null, []⟩ [97] = false from by
      rw [enchant_pwl_contains_iff]
      simp]
    rw [show enchant_is_title_case asciiModel [97] = false from by decide]
    rw [show enchant_is_all_caps asciiModel [97] = false from by decide]
    simp
  have hc0 : enchant_pwl_check asciiModel ⟨Trie.node (some [97]) none, [([97], [97])]⟩ [97]
      = 0 := by
    rw [enchant_pwl_check]
    rw [show enchant_pwl_contains asciiModel
        ⟨Trie.node (some [97]) none, [([97], [97])]⟩ [97] = true from by
      rw [enchant_pwl_contains_iff]
      simp [asciiModel]]
    simp
  rw [h2]
  exact ⟨rfl, hc1, hc0⟩
